import Mathlib

/-!
# Verification of the bencode-minimal codec

Shallow embedding of `src/decoder.rs`, `src/encoder.rs`, `src/value.rs` and
`src/try_from_value.rs` of the `bencode-minimal` Rust crate, together with
proofs settling the specification claims.

Bytes are modelled as `Nat` (the decoder and encoder only ever compare bytes
for equality / digit-range membership, so no `% 256` arithmetic occurs in the
source).  Machine integers: `i64` arithmetic is modelled on `Int` with the
explicit checked bounds `-2^63 ≤ · ≤ 2^63 - 1`, `usize`/`u64` on `Nat` with
the checked upper bound `2^64 - 1` (the crate targets 64-bit platforms).
`Cow<'a, [u8]>` is modelled as a two-variant type recording the ownership
mode; all comparisons in the source (`PartialEq`, `Ord` on `Cow`) go through
`Deref` and hence only see the byte content, which the embedding mirrors by
comparing `Cow.data`.
-/

namespace Bencode

/-- `std::borrow::Cow<'a, [u8]>`: a byte string that is either a borrowed view
into an external buffer or an independently owned buffer. -/
inductive Cow where
  | borrowed (data : List Nat)
  | owned (data : List Nat)
deriving DecidableEq, Repr

/-- The byte content of a `Cow` (what `Deref` exposes in Rust; equality and
ordering of `Cow<[u8]>` values in the source operate on this). -/
def Cow.data : Cow → List Nat
  | .borrowed d => d
  | .owned d => d

/-- `Value<'a>` from `src/value.rs`: a tagged union with four variants.
`BTreeMap<Cow<[u8]>, Value>` is modelled as an association list that is kept
strictly sorted by byte-lexicographic key order (the `BTreeMap`
representation invariant). -/
inductive Value where
  | int (i : Int)
  | str (s : Cow)
  | list (l : List Value)
  | dict (d : List (Cow × Value))

mutual

/-- Boolean structural equality on `Value` (the derived `PartialEq` compares
`Cow` byte strings through `Deref`, but `Cow` ownership is also recorded here;
content-only equality is obtained below via `strip`). -/
def veq : Value → Value → Bool
  | .int a, .int b => a = b
  | .str a, .str b => a = b
  | .list a, .list b => veqList a b
  | .dict a, .dict b => veqDict a b
  | _, _ => false

/-- `veq` on lists of values. -/
def veqList : List Value → List Value → Bool
  | [], [] => true
  | a :: as, b :: bs => veq a b && veqList as bs
  | _, _ => false

/-- `veq` on dictionary entry lists. -/
def veqDict : List (Cow × Value) → List (Cow × Value) → Bool
  | [], [] => true
  | (k, v) :: as, (k', v') :: bs => k = k' && veq v v' && veqDict as bs
  | _, _ => false

end

mutual

theorem veq_iff : ∀ a b, veq a b = true ↔ a = b
  | .int _, .int _ => by simp [veq]
  | .int _, .str _ => by simp [veq]
  | .int _, .list _ => by simp [veq]
  | .int _, .dict _ => by simp [veq]
  | .str _, .int _ => by simp [veq]
  | .str _, .str _ => by simp [veq]
  | .str _, .list _ => by simp [veq]
  | .str _, .dict _ => by simp [veq]
  | .list _, .int _ => by simp [veq]
  | .list _, .str _ => by simp [veq]
  | .list a, .list b => by simp [veq, veqList_iff a b]
  | .list _, .dict _ => by simp [veq]
  | .dict _, .int _ => by simp [veq]
  | .dict _, .str _ => by simp [veq]
  | .dict _, .list _ => by simp [veq]
  | .dict a, .dict b => by simp [veq, veqDict_iff a b]

theorem veqList_iff : ∀ a b, veqList a b = true ↔ a = b
  | [], [] => by simp [veqList]
  | [], _ :: _ => by simp [veqList]
  | _ :: _, [] => by simp [veqList]
  | a :: as, b :: bs => by simp [veqList, veq_iff a b, veqList_iff as bs]

theorem veqDict_iff : ∀ a b, veqDict a b = true ↔ a = b
  | [], [] => by simp [veqDict]
  | [], _ :: _ => by simp [veqDict]
  | _ :: _, [] => by simp [veqDict]
  | (k, v) :: as, (k', v') :: bs => by
      simp [veqDict, veq_iff v v', veqDict_iff as bs, and_assoc]

end

instance : DecidableEq Value := fun a b =>
  decidable_of_iff (veq a b = true) (veq_iff a b)

/-- Strict byte-lexicographic order on byte strings (the `Ord` instance of
`[u8]` used by `BTreeMap`). -/
def bytesLt : List Nat → List Nat → Bool
  | _, [] => false
  | [], _ :: _ => true
  | a :: as, b :: bs => if a < b then true else if a = b then bytesLt as bs else false

/-- `BTreeMap::insert` followed by the duplicate check in
`Decoder::take_dict` (`src/decoder.rs` lines 42-47): insert the binding at
its sorted position, failing (`None`) if an entry with byte-identical key is
already present. -/
def dictInsert (k : Cow) (v : Value) : List (Cow × Value) → Option (List (Cow × Value))
  | [] => some [(k, v)]
  | (k', v') :: rest =>
    if bytesLt k.data k'.data then some ((k, v) :: (k', v') :: rest)
    else if k.data = k'.data then none
    else (dictInsert k v rest).map (fun r => (k', v') :: r)

/-- `BTreeMap::get` (used by `Value::get`): lookup by byte content of the key. -/
def dictGet (key : List Nat) : List (Cow × Value) → Option Value
  | [] => none
  | (k, v) :: rest => if k.data = key then some v else dictGet key rest

/-! ## Decoder (`src/decoder.rs`)

The decoder is a struct holding the remaining input `buf` and the remaining
allocation budget `rem_allocs`; every method takes `&mut self` and returns an
`Option`.  We model each method as a pure function `DState → Option α × DState`:
the final state is returned even when the result is `none`, because Rust's `?`
operator keeps all buffer consumption performed before the failure (this is
observable through the `while let Some(key) = self.take_str()` loop in
`take_dict`). -/

structure DState where
  buf : List Nat
  rem_allocs : Nat
deriving DecidableEq, Repr

/-- ASCII digit test (`u8::is_ascii_digit`). -/
def isDigit (b : Nat) : Bool := 48 ≤ b && b ≤ 57

/-- `Decoder::take_u8_eq`: consume one byte equal to `c`; on mismatch or end of
input, consume nothing. -/
def take_u8_eq (c : Nat) (s : DState) : Option Unit × DState :=
  match s.buf with
  | x :: t => if x = c then (some (), ⟨t, s.rem_allocs⟩) else (none, s)
  | [] => (none, s)

/-- `Decoder::take_u8_if`: consume one byte satisfying `p`. -/
def take_u8_if (p : Nat → Bool) (s : DState) : Option Nat × DState :=
  match s.buf with
  | x :: t => if p x then (some x, ⟨t, s.rem_allocs⟩) else (none, s)
  | [] => (none, s)

/-- `Decoder::take_u8_slice` (via `split_at_checked`): consume exactly `n`
bytes, failing without consumption if fewer remain. -/
def take_u8_slice (n : Nat) (s : DState) : Option (List Nat) × DState :=
  if n ≤ s.buf.length then (some (s.buf.take n), ⟨s.buf.drop n, s.rem_allocs⟩)
  else (none, s)

/-- `i64::MAX` as an integer. -/
def maxI64 : Int := 2 ^ 63 - 1

/-- `i64::MIN` as an integer. -/
def minI64 : Int := -(2 ^ 63)

/-- `u64::MAX` (= `usize::MAX` on the 64-bit targets the crate runs on). -/
def maxU64 : Nat := 2 ^ 64 - 1

/-- The digit-accumulation loop of `Decoder::take_i64` (lines 84-87): repeat
`r = r.checked_mul(10)?; r = r.checked_add(d)?` while the next byte is an
ASCII digit.  A checked operation fails exactly when the mathematical result
leaves `[i64::MIN, i64::MAX]`; on failure the digit that triggered it has
already been consumed by `take_u8_if`.  The loop never touches `rem_allocs`,
so it is stated on the byte list alone and returns the unconsumed remainder. -/
def take_digits_i64 (r : Int) : List Nat → Option Int × List Nat
  | x :: t =>
    if isDigit x then
      if r * 10 < minI64 ∨ maxI64 < r * 10 then (none, t)
      else if r * 10 + ((x - 48 : Nat) : Int) < minI64 ∨ maxI64 < r * 10 + ((x - 48 : Nat) : Int) then
        (none, t)
      else take_digits_i64 (r * 10 + ((x - 48 : Nat) : Int)) t
    else (some r, x :: t)
  | [] => (some r, [])
termination_by structural l => l

/-- The digit-accumulation loop of `Decoder::take_usize` (lines 93-96), with
`usize` checked arithmetic. -/
def take_digits_usize (r : Nat) : List Nat → Option Nat × List Nat
  | x :: t =>
    if isDigit x then
      if maxU64 < r * 10 then (none, t)
      else if maxU64 < r * 10 + (x - 48) then (none, t)
      else take_digits_usize (r * 10 + (x - 48)) t
    else (some r, x :: t)
  | [] => (some r, [])
termination_by structural l => l

/-- `Decoder::take_i64`: optional `-` sign, a first mandatory digit, then the
checked accumulation loop; the result is negated when the sign was present. -/
def take_i64 (s : DState) : Option Int × DState :=
  let (sg, s1) := take_u8_eq 45 s
  match take_u8_if isDigit s1 with
  | (none, s2) => (none, s2)
  | (some x, s2) =>
    match take_digits_i64 ((x - 48 : Nat) : Int) s2.buf with
    | (none, b3) => (none, ⟨b3, s2.rem_allocs⟩)
    | (some r, b3) => (some (match sg with | some _ => -r | none => r), ⟨b3, s2.rem_allocs⟩)

/-- `Decoder::take_usize`: a first mandatory digit then the checked
accumulation loop. -/
def take_usize (s : DState) : Option Nat × DState :=
  match take_u8_if isDigit s with
  | (none, s1) => (none, s1)
  | (some x, s1) =>
    match take_digits_usize (x - 48) s1.buf with
    | (none, b2) => (none, ⟨b2, s1.rem_allocs⟩)
    | (some r, b2) => (some r, ⟨b2, s1.rem_allocs⟩)

/-- `Decoder::take_int`: `i`, signed number, `e`. -/
def take_int (s : DState) : Option Int × DState :=
  match take_u8_eq 105 s with
  | (none, s1) => (none, s1)
  | (some _, s1) =>
    match take_i64 s1 with
    | (none, s2) => (none, s2)
    | (some i, s2) =>
      match take_u8_eq 101 s2 with
      | (none, s3) => (none, s3)
      | (some _, s3) => (some i, s3)

/-- `Decoder::take_str`: decimal length, `:`, then exactly that many raw
bytes (returned as `Cow::Borrowed` by the source). -/
def take_str (s : DState) : Option (List Nat) × DState :=
  match take_usize s with
  | (none, s1) => (none, s1)
  | (some len, s1) =>
    match take_u8_eq 58 s1 with
    | (none, s2) => (none, s2)
    | (some _, s2) => take_u8_slice len s2

/-- `Decoder::alloc`: `rem_allocs.checked_sub(n)`. -/
def alloc (n : Nat) (s : DState) : Option Unit × DState :=
  if n ≤ s.rem_allocs then (some (), ⟨s.buf, s.rem_allocs - n⟩) else (none, s)

mutual

/-- `Decoder::take_value`: dispatch on the first unconsumed byte
(`i` = 105 → integer, `l` = 108 → list, `d` = 100 → dictionary, ASCII digit →
byte string, anything else or end of input → failure).  The `fuel` argument
is an artifact of the embedding; the recursion in the source terminates
because every recursive call strictly consumes input.  A successful parse of
a tree `T` uses at most three units of fuel per level of nesting and per
container element before a byte of input is consumed, while every list or
dictionary level contributes at least two bytes (opener and closer), so fuel
`2 * buf.length + 1` (used by `Value.decode` below) is always sufficient: a
`none` caused by fuel exhaustion can only occur where the source also fails. -/
def take_value : Nat → DState → Option Value × DState
  | 0, s => (none, s)
  | fuel + 1, s =>
    match s.buf with
    | [] => (none, s)
    | c :: _ =>
      if c = 105 then
        match take_int s with
        | (none, s') => (none, s')
        | (some i, s') => (some (Value.int i), s')
      else if c = 108 then
        match take_list fuel s with
        | (none, s') => (none, s')
        | (some l, s') => (some (Value.list l), s')
      else if c = 100 then
        match take_dict fuel s with
        | (none, s') => (none, s')
        | (some d, s') => (some (Value.dict d), s')
      else if isDigit c then
        match take_str s with
        | (none, s') => (none, s')
        | (some b, s') => (some (Value.str (Cow.borrowed b)), s')
      else (none, s)

/-- `Decoder::take_list`: `l`, the element loop, `e`.  (The fuel is
decremented once more here purely so that the mutual recursion is structural
in `fuel`.) -/
def take_list : Nat → DState → Option (List Value) × DState
  | 0, s => (none, s)
  | fuel + 1, s =>
  match take_u8_eq 108 s with
  | (none, s1) => (none, s1)
  | (some _, s1) =>
    match take_list_loop fuel s1 with
    | (none, s2) => (none, s2)
    | (some l, s2) =>
      match take_u8_eq 101 s2 with
      | (none, s3) => (none, s3)
      | (some _, s3) => (some l, s3)

/-- The `while self.buf.get(0)? != &b'e'` loop of `Decoder::take_list`
(lines 25-28): charge one allocation, parse one element, repeat. -/
def take_list_loop : Nat → DState → Option (List Value) × DState
  | 0, s => (none, s)
  | fuel + 1, s =>
    match s.buf with
    | [] => (none, s)
    | c :: _ =>
      if c = 101 then (some [], s)
      else
        match alloc 1 s with
        | (none, s1) => (none, s1)
        | (some _, s1) =>
          match take_value fuel s1 with
          | (none, s2) => (none, s2)
          | (some v, s2) =>
            match take_list_loop fuel s2 with
            | (none, s3) => (none, s3)
            | (some vs, s3) => (some (v :: vs), s3)

/-- `Decoder::take_dict`: `d`, the entry loop, `e`.  (Fuel decremented once
more so that the mutual recursion is structural in `fuel`.) -/
def take_dict : Nat → DState → Option (List (Cow × Value)) × DState
  | 0, s => (none, s)
  | fuel + 1, s =>
  match take_u8_eq 100 s with
  | (none, s1) => (none, s1)
  | (some _, s1) =>
    match take_dict_loop fuel [] s1 with
    | (none, s2) => (none, s2)
    | (some d, s2) =>
      match take_u8_eq 101 s2 with
      | (none, s3) => (none, s3)
      | (some _, s3) => (some d, s3)

/-- The `while let Some(key) = self.take_str()` loop of `Decoder::take_dict`
(lines 42-48), with `acc` the dictionary built so far.  Note that when
`take_str` fails the loop exits normally but keeps whatever `take_str`
already consumed — exactly as in the source, where `take_str(&mut self)`
mutates `self.buf` before failing. -/
def take_dict_loop : Nat → List (Cow × Value) → DState → Option (List (Cow × Value)) × DState
  | 0, _, s => (none, s)
  | fuel + 1, acc, s =>
    match take_str s with
    | (none, s1) => (some acc, s1)
    | (some k, s1) =>
      match alloc 1 s1 with
      | (none, s2) => (none, s2)
      | (some _, s2) =>
        match take_value fuel s2 with
        | (none, s3) => (none, s3)
        | (some v, s3) =>
          match dictInsert (Cow.borrowed k) v acc with
          | none => (none, s3)
          | some acc' => take_dict_loop fuel acc' s3

end

/-- `Value::decode` (`src/value.rs` lines 142-144): run `take_value` on a
fresh decoder and discard the final state (trailing bytes are ignored). -/
def Value.decode (buf : List Nat) (max_allocs : Nat) : Option Value :=
  (take_value (2 * buf.length + 1) ⟨buf, max_allocs⟩).1

/-! ## Encoder (`src/encoder.rs`)

The Rust encoder pushes bytes into a `&mut Vec<u8>`; we model each method as
the list of bytes it appends. -/

/-- Decimal digit count of `n`, i.e. `n.checked_ilog10().map(|i| i + 1).unwrap_or(1)`
from `Encoder::raw_u64` / `raw_usize`.  The fuel `20` is exact for every
`u64`/`usize` value since `2^64 < 10^20`. -/
def decLenAux : Nat → Nat → Nat
  | 0, _ => 1
  | f + 1, n => if n < 10 then 1 else decLenAux f (n / 10) + 1
termination_by structural f n => f

/-- Digit-fill loop of `Encoder::raw_u64` (lines 68-71): fill a buffer of
`len` cells from the rightmost cell with `b'0' + n % 10`, dividing `n` by 10
each step. -/
def rawFill (n : Nat) : Nat → List Nat
  | 0 => []
  | l + 1 => rawFill (n / 10) l ++ [48 + n % 10]
termination_by structural l => l

/-- `Encoder::raw_u64` (= `raw_usize`): the decimal digits of `n`, minimal
length, as ASCII bytes. -/
def raw_u64 (n : Nat) : List Nat :=
  rawFill n (decLenAux 20 n)

/-- `Encoder::str` (lines 28-32): decimal length, `:`, raw bytes. -/
def encStr (data : List Nat) : List Nat :=
  raw_u64 data.length ++ 58 :: data

mutual

/-- `Encoder::value` (lines 51-58) combined with `int` (19-26), `str`,
`list` (34-40) and `dict` (42-49): the canonical byte encoding.  Integers:
`i`, `-` iff negative, `raw_u64(n.unsigned_abs())`, `e`.  Dictionary entries
are emitted in the stored (sorted) order. -/
def encodeVal : Value → List Nat
  | .int i => 105 :: ((if i < 0 then [45] else []) ++ raw_u64 i.natAbs ++ [101])
  | .str s => encStr s.data
  | .list l => 108 :: (encodeList l ++ [101])
  | .dict d => 100 :: (encodeDict d ++ [101])

/-- The element loop of `Encoder::list`. -/
def encodeList : List Value → List Nat
  | [] => []
  | v :: vs => encodeVal v ++ encodeList vs

/-- The entry loop of `Encoder::dict`: key (as byte string) then value. -/
def encodeDict : List (Cow × Value) → List Nat
  | [] => []
  | (k, v) :: rest => encStr k.data ++ encodeVal v ++ encodeDict rest

end

/-! ## Ownership, content equality, and structural measures -/

/-- `Cow::into_owned` wrapped in `Cow::Owned` (what `Value::into_owned` does
to every byte string). -/
def Cow.intoOwned (c : Cow) : Cow := Cow.owned c.data

/-- Is this `Cow` a borrowed view? -/
def Cow.isBorrowed : Cow → Bool
  | .borrowed _ => true
  | .owned _ => false

mutual

/-- `Value::into_owned` (`src/value.rs` lines 151-160): recursively rebuild
every container and turn every byte string into `Cow::Owned` of the same
content. -/
def intoOwned : Value → Value
  | .int i => .int i
  | .str s => .str (Cow.owned s.data)
  | .list l => .list (intoOwnedList l)
  | .dict d => .dict (intoOwnedDict d)

/-- `into_owned` mapped over a list of values. -/
def intoOwnedList : List Value → List Value
  | [] => []
  | v :: vs => intoOwned v :: intoOwnedList vs

/-- `into_owned` mapped over dictionary entries (keys become owned too). -/
def intoOwnedDict : List (Cow × Value) → List (Cow × Value)
  | [] => []
  | (k, v) :: rest => (Cow.owned k.data, intoOwned v) :: intoOwnedDict rest

end

mutual

/-- Content projection: replace every `Cow` by `Cow.borrowed` of the same
bytes.  Two values are equal under the source's `PartialEq` (which compares
`Cow` content only) exactly when their `strip`s are equal, so `strip` equality
is the embedding of "equal under content equality, ownership mode ignored". -/
def strip : Value → Value
  | .int i => .int i
  | .str s => .str (Cow.borrowed s.data)
  | .list l => .list (stripList l)
  | .dict d => .dict (stripDict d)

/-- `strip` mapped over a list of values. -/
def stripList : List Value → List Value
  | [] => []
  | v :: vs => strip v :: stripList vs

/-- `strip` mapped over dictionary entries. -/
def stripDict : List (Cow × Value) → List (Cow × Value)
  | [] => []
  | (k, v) :: rest => (Cow.borrowed k.data, strip v) :: stripDict rest

end

mutual

/-- Does the value still contain a borrowed byte span anywhere? -/
def hasBorrowed : Value → Bool
  | .int _ => false
  | .str s => s.isBorrowed
  | .list l => hasBorrowedList l
  | .dict d => hasBorrowedDict d

/-- `hasBorrowed` over a list of values. -/
def hasBorrowedList : List Value → Bool
  | [] => false
  | v :: vs => hasBorrowed v || hasBorrowedList vs

/-- `hasBorrowed` over dictionary entries (keys included). -/
def hasBorrowedDict : List (Cow × Value) → Bool
  | [] => false
  | (k, v) :: rest => k.isBorrowed || hasBorrowed v || hasBorrowedDict rest

end

mutual

/-- The number of list elements plus dictionary entries in the whole tree:
exactly the number of allocation-budget units `Value::decode` charges. -/
def countVal : Value → Nat
  | .int _ => 0
  | .str _ => 0
  | .list l => countList l
  | .dict d => countDict d

/-- `countVal` summed over list elements, plus one unit per element. -/
def countList : List Value → Nat
  | [] => 0
  | v :: vs => 1 + countVal v + countList vs

/-- `countVal` summed over dictionary values, plus one unit per entry. -/
def countDict : List (Cow × Value) → Nat
  | [] => 0
  | (_, v) :: rest => 1 + countVal v + countDict rest

end

/-- Adjacent strict sortedness of dictionary keys in byte-lexicographic
order (the `BTreeMap` iteration-order invariant). -/
def keysSorted : List (Cow × Value) → Bool
  | [] => true
  | [_] => true
  | (a, _) :: (b, w) :: rest => bytesLt a.data b.data && keysSorted ((b, w) :: rest)

mutual

/-- Every dictionary anywhere in the tree has its entries strictly sorted by
byte-lexicographic key order. -/
def sortedVal : Value → Bool
  | .int _ => true
  | .str _ => true
  | .list l => sortedList l
  | .dict d => keysSorted d && sortedDict d

/-- `sortedVal` over list elements. -/
def sortedList : List Value → Bool
  | [] => true
  | v :: vs => sortedVal v && sortedList vs

/-- `sortedVal` over dictionary values. -/
def sortedDict : List (Cow × Value) → Bool
  | [] => true
  | (_, v) :: rest => sortedVal v && sortedDict rest

end

mutual

/-- Representation invariant of a Rust `Value`: every integer fits in `i64`,
every byte string and dictionary key has a `usize` length (a `Vec`/slice
length is always below `2^64`), and every dictionary is a well-formed
`BTreeMap`, i.e. strictly sorted by key bytes. -/
def validVal : Value → Bool
  | .int i => decide (minI64 ≤ i) && decide (i ≤ maxI64)
  | .str s => decide (s.data.length ≤ maxU64)
  | .list l => validList l
  | .dict d => keysSorted d && validDict d

/-- `validVal` over list elements. -/
def validList : List Value → Bool
  | [] => true
  | v :: vs => validVal v && validList vs

/-- `validVal` over dictionary entries: key length in `usize` range and valid
value. -/
def validDict : List (Cow × Value) → Bool
  | [] => true
  | (k, v) :: rest => decide (k.data.length ≤ maxU64) && validVal v && validDict rest

end

mutual

/-- Does the tree contain an integer equal to `i64::MIN`?  (The one tree
shape whose canonical encoding the decoder cannot parse back, because
`take_i64` accumulates the magnitude in signed 64-bit arithmetic.) -/
def hasMinInt : Value → Bool
  | .int i => decide (i = minI64)
  | .str _ => false
  | .list l => hasMinIntList l
  | .dict d => hasMinIntDict d

/-- `hasMinInt` over list elements. -/
def hasMinIntList : List Value → Bool
  | [] => false
  | v :: vs => hasMinInt v || hasMinIntList vs

/-- `hasMinInt` over dictionary values. -/
def hasMinIntDict : List (Cow × Value) → Bool
  | [] => false
  | (_, v) :: rest => hasMinInt v || hasMinIntDict rest

end

/-! ## Typed projection layer (`src/try_from_value.rs`, `Value::get`) -/

/-- `TryFromValue for &Dict`: succeeds exactly on the dictionary variant. -/
def tryFromDict : Value → Option (List (Cow × Value))
  | .dict d => some d
  | _ => none

/-- `TryFromValue for [u8; N]` (`src/try_from_value.rs` lines 30-34):
succeeds iff the value is a byte string whose content has exactly length `n`,
yielding that content. -/
def tryFromArray (n : Nat) : Value → Option (List Nat)
  | .str s => if s.data.length = n then some s.data else none
  | _ => none

/-- `TryFromValue for i64`: succeeds exactly on the integer variant. -/
def tryFromInt : Value → Option Int
  | .int i => some i
  | _ => none

/-- `Value::get` (`src/value.rs` lines 95-99) with target type `&Value` (the
identity conversion): convert to a dictionary reference, look the key up; any
failing step yields `none`. -/
def Value.get (v : Value) (key : List Nat) : Option Value :=
  (tryFromDict v).bind (dictGet key)

/-- `Value::get` with target type `[u8; N]`: the same lookup followed by the
fixed-size-array conversion. -/
def Value.getArray (v : Value) (key : List Nat) (n : Nat) : Option (List Nat) :=
  ((tryFromDict v).bind (dictGet key)).bind (tryFromArray n)

/-- ASCII bytes of a string literal, for writing concrete inputs readably. -/
def bytes (s : String) : List Nat :=
  s.toList.map Char.toNat

/-! ## Order lemmas for `bytesLt` -/

theorem bytesLt_irrefl : ∀ a, bytesLt a a = false
  | [] => rfl
  | a :: as => by simp [bytesLt, bytesLt_irrefl as]

theorem bytesLt_trans : ∀ a b c, bytesLt a b = true → bytesLt b c = true →
    bytesLt a c = true
  | _, b, [] => by simp [bytesLt]
  | [], b :: bs, c :: cs => by simp [bytesLt]
  | _ :: _, [], c :: cs => by simp [bytesLt]
  | [], [], c :: cs => by simp [bytesLt]
  | a :: as, b :: bs, c :: cs => by
    simp only [bytesLt]
    intro h1 h2
    rcases Nat.lt_trichotomy a b with hab | hab | hab
    · rcases Nat.lt_trichotomy b c with hbc | hbc | hbc
      · simp [Nat.lt_trans hab hbc]
      · subst hbc; simp [hab]
      · simp [Nat.lt_asymm hbc, Ne.symm (Nat.ne_of_lt hbc)] at h2
    · subst hab
      rcases Nat.lt_trichotomy a c with hbc | hbc | hbc
      · simp [hbc]
      · subst hbc
        simp [Nat.lt_irrefl] at h1 h2 ⊢
        exact bytesLt_trans as bs cs h1 h2
      · simp [Nat.lt_asymm hbc, Ne.symm (Nat.ne_of_lt hbc)] at h2
    · simp [Nat.lt_asymm hab, Ne.symm (Nat.ne_of_lt hab)] at h1

theorem bytesLt_total : ∀ a b, bytesLt a b = true ∨ a = b ∨ bytesLt b a = true
  | [], [] => Or.inr (Or.inl rfl)
  | [], _ :: _ => Or.inl (by simp [bytesLt])
  | _ :: _, [] => Or.inr (Or.inr (by simp [bytesLt]))
  | a :: as, b :: bs => by
    rcases Nat.lt_trichotomy a b with hab | hab | hab
    · exact Or.inl (by simp [bytesLt, hab])
    · subst hab
      rcases bytesLt_total as bs with h | h | h
      · exact Or.inl (by simp [bytesLt, h])
      · exact Or.inr (Or.inl (by rw [h]))
      · exact Or.inr (Or.inr (by simp [bytesLt, h]))
    · exact Or.inr (Or.inr (by simp [bytesLt, hab]))

theorem bytesLt_asymm {a b} (h : bytesLt a b = true) : bytesLt b a = false := by
  by_contra hc
  have hba : bytesLt b a = true := by
    cases hx : bytesLt b a
    · exact absurd hx hc
    · rfl
  have := bytesLt_trans a b a h hba
  simp [bytesLt_irrefl] at this

theorem bytesLt_ne {a b} (h : bytesLt a b = true) : a ≠ b := by
  rintro rfl
  simp [bytesLt_irrefl] at h

/-! ## `dictInsert` and `keysSorted` lemmas -/

theorem keysSorted_cons {k v rest} (h : keysSorted ((k, v) :: rest) = true) :
    keysSorted rest = true := by
  match rest with
  | [] => rfl
  | (k', v') :: r => simp [keysSorted] at h; exact h.2

theorem keysSorted_head_lt {k : Cow} {v rest} (h : keysSorted ((k, v) :: rest) = true) :
    ∀ e ∈ rest, bytesLt k.data e.1.data = true := by
  induction rest generalizing k v with
  | nil => intro e he; cases he
  | cons hd tl ih =>
    intro e he
    obtain ⟨k', v'⟩ := hd
    simp only [keysSorted, Bool.and_eq_true] at h
    rcases List.mem_cons.mp he with rfl | he'
    · exact h.1
    · exact bytesLt_trans _ _ _ h.1 (ih h.2 e he')

/-- A key strictly above every key of the accumulated (sorted) dictionary is
inserted at the end. -/
theorem dictInsert_append {k : Cow} {v : Value} :
    ∀ {acc : List (Cow × Value)}, (∀ e ∈ acc, bytesLt e.1.data k.data = true) →
    dictInsert k v acc = some (acc ++ [(k, v)])
  | [], _ => rfl
  | (k', v') :: rest, h => by
    have hk' : bytesLt k'.data k.data = true := h (k', v') (by simp)
    have h1 : bytesLt k.data k'.data = false := bytesLt_asymm hk'
    have h2 : k.data ≠ k'.data := Ne.symm (bytesLt_ne hk')
    simp only [dictInsert, h1, h2, if_false, Bool.false_eq_true]
    rw [dictInsert_append (fun e he => h e (List.mem_cons_of_mem _ he))]
    rfl

/-- Inserting a key already present in a sorted dictionary fails. -/
theorem dictInsert_dup {k : Cow} {v : Value} :
    ∀ {d : List (Cow × Value)}, keysSorted d = true →
    (∃ e ∈ d, e.1.data = k.data) → dictInsert k v d = none
  | [], _, h => by simp at h
  | (k', v') :: rest, hs, ⟨e, he, hek⟩ => by
    simp only [dictInsert]
    rcases List.mem_cons.mp he with rfl | he
    · simp only at hek
      simp [hek, bytesLt_irrefl]
    · have hlt : bytesLt k'.data e.1.data = true := keysSorted_head_lt hs e he
      rw [hek] at hlt
      simp only [bytesLt_asymm hlt, Bool.false_eq_true, if_false,
        Ne.symm (bytesLt_ne hlt), if_false]
      rw [dictInsert_dup (keysSorted_cons hs) ⟨e, he, hek⟩]
      rfl

/-- `dictInsert` preserves sortedness of keys (`BTreeMap` invariant). -/
theorem dictInsert_sorted {k : Cow} {v : Value} :
    ∀ {d d' : List (Cow × Value)}, keysSorted d = true →
    dictInsert k v d = some d' → keysSorted d' = true
  | [], d', _, h => by
    simp only [dictInsert, Option.some.injEq] at h
    subst h; rfl
  | (k', v') :: rest, d', hs, h => by
    simp only [dictInsert] at h
    by_cases h1 : bytesLt k.data k'.data = true
    · rw [if_pos h1] at h
      obtain rfl := Option.some.injEq _ _ |>.mp h
      simp [keysSorted, h1, hs]
    · rw [if_neg h1] at h
      by_cases h2 : k.data = k'.data
      · rw [if_pos h2] at h; exact Option.noConfusion h
      · rw [if_neg h2] at h
        match hrec : dictInsert k v rest with
        | none => rw [hrec] at h; simp at h
        | some r =>
          rw [hrec] at h
          simp only [Option.map_some', Option.some.injEq] at h
          subst h
          have hrs : keysSorted r = true :=
            dictInsert_sorted (keysSorted_cons hs) hrec
          have hk'k : bytesLt k'.data k.data = true := by
            rcases bytesLt_total k.data k'.data with hx | hx | hx
            · exact absurd hx h1
            · exact absurd hx h2
            · exact hx
          match rest, r, hrec with
          | [], r, hrec =>
            simp only [dictInsert, Option.some.injEq] at hrec
            subst hrec
            simp [keysSorted, hk'k]
          | (k2, v2) :: rest2, r, hrec =>
            simp only [dictInsert] at hrec
            by_cases hy : bytesLt k.data k2.data = true
            · rw [if_pos hy] at hrec
              obtain rfl := Option.some.injEq _ _ |>.mp hrec
              simp only [keysSorted, Bool.and_eq_true]
              exact ⟨hk'k, by simp only [keysSorted, Bool.and_eq_true] at hrs; exact hrs⟩
            · rw [if_neg hy] at hrec
              by_cases hz : k.data = k2.data
              · simp [hz] at hrec
              · rw [if_neg hz] at hrec
                match hr2 : dictInsert k v rest2 with
                | none => rw [hr2] at hrec; simp at hrec
                | some r2 =>
                  rw [hr2] at hrec
                  simp only [Option.map_some', Option.some.injEq] at hrec
                  subst hrec
                  simp only [keysSorted, Bool.and_eq_true] at hs ⊢
                  exact ⟨hs.1, hrs⟩

/-- Membership in the result of `dictInsert`: exactly the old entries plus
the new one. -/
theorem dictInsert_mem {k : Cow} {v : Value} :
    ∀ {d d' : List (Cow × Value)}, dictInsert k v d = some d' →
    ∀ e ∈ d', e = (k, v) ∨ e ∈ d
  | [], d', h => by
    simp only [dictInsert, Option.some.injEq] at h
    subst h; simp
  | (k', v') :: rest, d', h => by
    simp only [dictInsert] at h
    by_cases h1 : bytesLt k.data k'.data = true
    · rw [if_pos h1] at h
      obtain rfl := Option.some.injEq _ _ |>.mp h
      intro e he
      simp only [List.mem_cons] at he
      rcases he with rfl | rfl | he <;> simp_all
    · rw [if_neg h1] at h
      by_cases h2 : k.data = k'.data
      · rw [if_pos h2] at h; exact Option.noConfusion h
      · rw [if_neg h2] at h
        match hrec : dictInsert k v rest with
        | none => rw [hrec] at h; simp at h
        | some r =>
          rw [hrec] at h
          simp only [Option.map_some', Option.some.injEq] at h
          subst h
          intro e he
          simp only [List.mem_cons] at he
          rcases he with rfl | he
          · simp
          · rcases dictInsert_mem hrec e he with h | h
            · exact Or.inl h
            · simp [h]

/-! ## Decimal digit values -/

/-- The number denoted by a run of ASCII digit bytes, accumulated onto `r`
exactly as the decoder's loops do. -/
def digitsVal (r : Nat) : List Nat → Nat
  | [] => r
  | d :: ds => digitsVal (r * 10 + (d - 48)) ds

/-- The `Int`-valued accumulator of `take_digits_i64`. -/
def valI (r : Int) : List Nat → Int
  | [] => r
  | d :: ds => valI (r * 10 + ((d - 48 : Nat) : Int)) ds

/-- The first unconsumed byte, if any, is not an ASCII digit (what stops the
digit loops). -/
def noDigitHead (l : List Nat) : Prop :=
  ∀ c, l.head? = some c → isDigit c = false

theorem noDigitHead_nil : noDigitHead [] := fun c h => by cases h

theorem noDigitHead_cons {c : Nat} {t : List Nat} (h : isDigit c = false) :
    noDigitHead (c :: t) := by
  intro c' hc'
  cases hc'
  exact h

theorem digitsVal_ge : ∀ (ds : List Nat) (r : Nat), r ≤ digitsVal r ds
  | [], r => le_refl r
  | d :: ds, r => le_trans (by omega) (digitsVal_ge ds (r * 10 + (d - 48)))

theorem valI_cast : ∀ (ds : List Nat) (rn : Nat), valI (rn : Int) ds = (digitsVal rn ds : Nat)
  | [], rn => rfl
  | d :: ds, rn => by
    show valI ((rn : Int) * 10 + ((d - 48 : Nat) : Int)) ds = _
    rw [show ((rn : Int) * 10 + ((d - 48 : Nat) : Int)) = ((rn * 10 + (d - 48) : Nat) : Int) by
      push_cast; ring]
    rw [valI_cast ds (rn * 10 + (d - 48))]
    rfl

theorem valI_nonneg : ∀ (ds : List Nat) {r : Int}, 0 ≤ r → 0 ≤ valI r ds
  | [], r, hr => hr
  | d :: ds, r, hr => valI_nonneg ds (by positivity)

theorem valI_ge : ∀ (ds : List Nat) {r : Int}, 0 ≤ r → r ≤ valI r ds
  | [], r, _ => le_refl r
  | d :: ds, r, hr => by
    have h1 : r ≤ r * 10 + ((d - 48 : Nat) : Int) := by
      have h9 : 0 ≤ 9 * r := by positivity
      have hd : (0 : Int) ≤ ((d - 48 : Nat) : Int) := Int.natCast_nonneg _
      nlinarith
    exact le_trans h1 (valI_ge ds (le_trans hr h1))

/-! ## Digit-loop parse lemmas -/

theorem take_digits_usize_eq :
    ∀ (ds : List Nat) {rest : List Nat} (r : Nat),
    (∀ d ∈ ds, isDigit d = true) → noDigitHead rest → digitsVal r ds ≤ maxU64 →
    take_digits_usize r (ds ++ rest) = (some (digitsVal r ds), rest)
  | [], rest, r, _, hrest, _ => by
    match rest with
    | [] => rfl
    | c :: t =>
      have hc := hrest c rfl
      show take_digits_usize r (c :: t) = (some (digitsVal r []), c :: t)
      rw [take_digits_usize.eq_1, hc]
      simp only [Bool.false_eq_true, if_false]
      rfl
  | d :: ds, rest, r, hds, hrest, hval => by
    have hd : isDigit d = true := hds d (by simp)
    have hge : r * 10 + (d - 48) ≤ digitsVal r (d :: ds) := digitsVal_ge ds _
    have h1 : ¬ maxU64 < r * 10 := by omega
    have h2 : ¬ maxU64 < r * 10 + (d - 48) := by omega
    show take_digits_usize r (d :: (ds ++ rest)) = _
    rw [take_digits_usize.eq_1, if_pos hd, if_neg h1, if_neg h2]
    show _ = (some (digitsVal (r * 10 + (d - 48)) ds), rest)
    exact take_digits_usize_eq ds (r * 10 + (d - 48)) (fun x hx => hds x (by simp [hx]))
      hrest hval

theorem take_digits_i64_eq :
    ∀ (ds : List Nat) {rest : List Nat} {r : Int},
    (∀ d ∈ ds, isDigit d = true) → noDigitHead rest → 0 ≤ r → valI r ds ≤ maxI64 →
    take_digits_i64 r (ds ++ rest) = (some (valI r ds), rest)
  | [], rest, r, _, hrest, _, _ => by
    match rest with
    | [] => rfl
    | c :: t =>
      have hc := hrest c rfl
      show take_digits_i64 r (c :: t) = (some (valI r []), c :: t)
      rw [take_digits_i64.eq_1, hc]
      simp only [Bool.false_eq_true, if_false]
      rfl
  | d :: ds, rest, r, hds, hrest, hr, hval => by
    have hd : isDigit d = true := hds d (by simp)
    have hdn : (0 : Int) ≤ ((d - 48 : Nat) : Int) := Int.natCast_nonneg _
    have hmul : (0 : Int) ≤ r * 10 := by positivity
    have hge : r * 10 + ((d - 48 : Nat) : Int) ≤ valI r (d :: ds) :=
      valI_ge ds (by positivity)
    have h1 : ¬ (r * 10 < minI64 ∨ maxI64 < r * 10) := by
      simp only [minI64, maxI64] at *
      omega
    have h2 : ¬ (r * 10 + ((d - 48 : Nat) : Int) < minI64 ∨
        maxI64 < r * 10 + ((d - 48 : Nat) : Int)) := by
      simp only [minI64, maxI64] at *
      omega
    show take_digits_i64 r (d :: (ds ++ rest)) = _
    rw [take_digits_i64.eq_1, if_pos hd, if_neg h1, if_neg h2]
    show _ = (some (valI (r * 10 + ((d - 48 : Nat) : Int)) ds), rest)
    exact take_digits_i64_eq ds (fun x hx => hds x (by simp [hx])) hrest (by positivity) hval

theorem take_digits_i64_overflow :
    ∀ (ds : List Nat) {rest : List Nat} {r : Int},
    (∀ d ∈ ds, isDigit d = true) → 0 ≤ r → r ≤ maxI64 → maxI64 < valI r ds →
    ∃ t, take_digits_i64 r (ds ++ rest) = (none, t)
  | [], rest, r, _, _, hle, hgt => absurd hle (by simpa [valI] using hgt)
  | d :: ds, rest, r, hds, hr, hle, hgt => by
    have hd : isDigit d = true := hds d (by simp)
    have hdn : (0 : Int) ≤ ((d - 48 : Nat) : Int) := Int.natCast_nonneg _
    have hmul : (0 : Int) ≤ r * 10 := by positivity
    show ∃ t, take_digits_i64 r (d :: (ds ++ rest)) = (none, t)
    by_cases h1 : maxI64 < r * 10
    · refine ⟨ds ++ rest, ?_⟩
      rw [take_digits_i64.eq_1, if_pos hd, if_pos (Or.inr h1)]
    · by_cases h2 : maxI64 < r * 10 + ((d - 48 : Nat) : Int)
      · refine ⟨ds ++ rest, ?_⟩
        rw [take_digits_i64.eq_1, if_pos hd,
          if_neg (by simp only [minI64] at *; omega), if_pos (Or.inr h2)]
      · have hrec := @take_digits_i64_overflow ds rest (r * 10 + ((d - 48 : Nat) : Int))
          (fun x hx => hds x (by simp [hx]))
          (by positivity) (by omega) hgt
        obtain ⟨t, ht⟩ := hrec
        refine ⟨t, ?_⟩
        rw [take_digits_i64.eq_1, if_pos hd,
          if_neg (by simp only [minI64] at *; omega),
          if_neg (by simp only [minI64] at *; omega)]
        exact ht

/-! ## Budget preservation by the scalar parsers -/

theorem rem_take_u8_eq (c : Nat) (s : DState) :
    ((take_u8_eq c s).2).rem_allocs = s.rem_allocs := by
  rcases s with ⟨buf, a⟩
  cases buf with
  | nil => rfl
  | cons x t =>
    simp only [take_u8_eq]
    split <;> rfl

theorem rem_take_u8_if (p : Nat → Bool) (s : DState) :
    ((take_u8_if p s).2).rem_allocs = s.rem_allocs := by
  rcases s with ⟨buf, a⟩
  cases buf with
  | nil => rfl
  | cons x t =>
    simp only [take_u8_if]
    split <;> rfl

theorem rem_take_u8_slice (n : Nat) (s : DState) :
    ((take_u8_slice n s).2).rem_allocs = s.rem_allocs := by
  simp only [take_u8_slice]
  split <;> rfl

theorem rem_take_usize (s : DState) :
    ((take_usize s).2).rem_allocs = s.rem_allocs := by
  simp only [take_usize]
  rcases hx : take_u8_if isDigit s with ⟨ox, s1⟩
  have h1 : s1.rem_allocs = s.rem_allocs := by
    have := rem_take_u8_if isDigit s
    rw [hx] at this
    exact this
  cases ox with
  | none => simpa using h1
  | some x =>
    rcases hd : take_digits_usize (x - 48) s1.buf with ⟨o2, b2⟩
    cases o2 <;> simp [hd, h1]

theorem rem_take_i64 (s : DState) :
    ((take_i64 s).2).rem_allocs = s.rem_allocs := by
  simp only [take_i64]
  rcases hsg : take_u8_eq 45 s with ⟨sg, s1⟩
  have h1 : s1.rem_allocs = s.rem_allocs := by
    have := rem_take_u8_eq 45 s
    rw [hsg] at this
    exact this
  rcases hx : take_u8_if isDigit s1 with ⟨ox, s2⟩
  have h2 : s2.rem_allocs = s1.rem_allocs := by
    have := rem_take_u8_if isDigit s1
    rw [hx] at this
    exact this
  cases ox with
  | none => simpa using h2.trans h1
  | some x =>
    rcases hd : take_digits_i64 ((x - 48 : Nat) : Int) s2.buf with ⟨o3, b3⟩
    cases o3 <;> simp [hd, h2.trans h1]

theorem rem_take_int (s : DState) :
    ((take_int s).2).rem_allocs = s.rem_allocs := by
  simp only [take_int]
  rcases h1 : take_u8_eq 105 s with ⟨o1, s1⟩
  have e1 : s1.rem_allocs = s.rem_allocs := by
    have := rem_take_u8_eq 105 s
    rw [h1] at this
    exact this
  cases o1 with
  | none => simpa using e1
  | some _ =>
    rcases h2 : take_i64 s1 with ⟨o2, s2⟩
    have e2 : s2.rem_allocs = s1.rem_allocs := by
      have := rem_take_i64 s1
      rw [h2] at this
      exact this
    cases o2 with
    | none => simpa [h2] using e2.trans e1
    | some i =>
      rcases h3 : take_u8_eq 101 s2 with ⟨o3, s3⟩
      have e3 : s3.rem_allocs = s2.rem_allocs := by
        have := rem_take_u8_eq 101 s2
        rw [h3] at this
        exact this
      cases o3 <;> simpa [h2, h3] using e3.trans (e2.trans e1)

theorem rem_take_str (s : DState) :
    ((take_str s).2).rem_allocs = s.rem_allocs := by
  simp only [take_str]
  rcases h1 : take_usize s with ⟨o1, s1⟩
  have e1 : s1.rem_allocs = s.rem_allocs := by
    have := rem_take_usize s
    rw [h1] at this
    exact this
  cases o1 with
  | none => simpa using e1
  | some len =>
    rcases h2 : take_u8_eq 58 s1 with ⟨o2, s2⟩
    have e2 : s2.rem_allocs = s1.rem_allocs := by
      have := rem_take_u8_eq 58 s1
      rw [h2] at this
      exact this
    cases o2 with
    | none => simpa [h2] using e2.trans e1
    | some _ =>
      have e3 := rem_take_u8_slice len s2
      simpa [h2] using e3.trans (e2.trans e1)

/-! ## Encoder digit lemmas -/

theorem rawFill_digits : ∀ (l n : Nat), ∀ d ∈ rawFill n l, isDigit d = true
  | 0, n => by intro d hd; cases hd
  | l + 1, n => by
    intro d hd
    rcases List.mem_append.mp hd with h | h
    · exact rawFill_digits l (n / 10) d h
    · have : d = 48 + n % 10 := by simpa using h
      subst this
      have : n % 10 ≤ 9 := by omega
      simp only [isDigit, Bool.and_eq_true, decide_eq_true_eq]
      omega

theorem rawFill_length : ∀ (l n : Nat), (rawFill n l).length = l
  | 0, _ => rfl
  | l + 1, n => by simp [rawFill, rawFill_length l (n / 10)]

theorem digitsVal_append (xs : List Nat) :
    ∀ (ys : List Nat) (r : Nat), digitsVal r (xs ++ ys) = digitsVal (digitsVal r xs) ys := by
  induction xs with
  | nil => intro ys r; rfl
  | cons x xs ih => intro ys r; exact ih ys (r * 10 + (x - 48))

theorem rawFill_val (l : Nat) : ∀ (n r : Nat), n < 10 ^ l →
    digitsVal r (rawFill n l) = r * 10 ^ l + n := by
  induction l with
  | zero =>
    intro n r h
    have : n = 0 := by simpa using h
    subst this
    show r = r * 10 ^ 0 + 0
    omega
  | succ l ih =>
    intro n r h
    have hdiv : n / 10 < 10 ^ l := by
      rw [Nat.div_lt_iff_lt_mul (by norm_num)]
      calc n < 10 ^ (l + 1) := h
        _ = 10 ^ l * 10 := by ring
    show digitsVal r (rawFill (n / 10) l ++ [48 + n % 10]) = _
    rw [digitsVal_append, ih (n / 10) r hdiv]
    show (r * 10 ^ l + n / 10) * 10 + (48 + n % 10 - 48) = r * 10 ^ (l + 1) + n
    have hmod : 48 + n % 10 - 48 = n % 10 := by omega
    rw [hmod]
    calc (r * 10 ^ l + n / 10) * 10 + n % 10
        = r * (10 ^ l * 10) + (10 * (n / 10) + n % 10) := by ring
      _ = r * (10 ^ l * 10) + n := by rw [Nat.div_add_mod]
      _ = r * 10 ^ (l + 1) + n := by ring

theorem decLenAux_pos : ∀ (f n : Nat), 1 ≤ decLenAux f n
  | 0, _ => le_refl 1
  | f + 1, n => by
    simp only [decLenAux]
    split
    · exact le_refl 1
    · omega

theorem decLenAux_bound : ∀ (f n : Nat), n < 10 ^ f → n < 10 ^ decLenAux f n
  | 0, n, h => by
    simp only [pow_zero, Nat.lt_one_iff] at h
    subst h
    simp [decLenAux]
  | f + 1, n, h => by
    simp only [decLenAux]
    split
    · simpa using by omega
    · rename_i hge
      have hdiv : n / 10 < 10 ^ f := by
        rw [Nat.div_lt_iff_lt_mul (by norm_num)]
        calc n < 10 ^ (f + 1) := h
          _ = 10 ^ f * 10 := by ring
      have ih := decLenAux_bound f (n / 10) hdiv
      have h10 : 10 ^ (decLenAux f (n / 10) + 1) = 10 ^ decLenAux f (n / 10) * 10 := by ring
      have := Nat.div_add_mod n 10
      have hmod : n % 10 ≤ 9 := by omega
      omega

theorem decLenAux_min : ∀ (f n : Nat), 2 ≤ decLenAux f n →
    10 ^ (decLenAux f n - 1) ≤ n
  | 0, n, h => by simp [decLenAux] at h
  | f + 1, n, h => by
    simp only [decLenAux] at h ⊢
    split at h
    · omega
    · rename_i hge
      push_neg at hge
      split
      · omega
      · by_cases h2 : 2 ≤ decLenAux f (n / 10)
        · have ih := decLenAux_min f (n / 10) h2
          have hL : decLenAux f (n / 10) + 1 - 1 = (decLenAux f (n / 10) - 1) + 1 := by
            have := decLenAux_pos f (n / 10)
            omega
          rw [hL, pow_succ]
          have := Nat.div_add_mod n 10
          calc 10 ^ (decLenAux f (n / 10) - 1) * 10 ≤ (n / 10) * 10 :=
            Nat.mul_le_mul_right 10 ih
            _ ≤ n := by omega
        · have h1 : decLenAux f (n / 10) = 1 := by
            have := decLenAux_pos f (n / 10)
            omega
          rw [h1]
          simpa using hge

theorem maxU64_lt_pow20 : maxU64 < 10 ^ 20 := by decide

theorem raw_u64_val {n : Nat} (h : n ≤ maxU64) : digitsVal 0 (raw_u64 n) = n := by
  have hb : n < 10 ^ decLenAux 20 n :=
    decLenAux_bound 20 n (lt_of_le_of_lt h maxU64_lt_pow20)
  simpa using rawFill_val (decLenAux 20 n) n 0 hb

theorem raw_u64_digits {n : Nat} : ∀ d ∈ raw_u64 n, isDigit d = true :=
  rawFill_digits (decLenAux 20 n) n

theorem raw_u64_ne_nil {n : Nat} : raw_u64 n ≠ [] := by
  intro h
  have hl := rawFill_length (decLenAux 20 n) n
  rw [show rawFill n (decLenAux 20 n) = raw_u64 n from rfl, h] at hl
  have := decLenAux_pos 20 n
  simp at hl
  omega

/-! ## Composite scalar parse lemmas -/

theorem digitsVal_cons0 (d : Nat) (ds : List Nat) :
    digitsVal 0 (d :: ds) = digitsVal (d - 48) ds := by
  show digitsVal (0 * 10 + (d - 48)) ds = _
  norm_num

theorem take_usize_eq {ds rest : List Nat} {a : Nat} (hne : ds ≠ [])
    (hds : ∀ d ∈ ds, isDigit d = true) (hrest : noDigitHead rest)
    (hval : digitsVal 0 ds ≤ maxU64) :
    take_usize ⟨ds ++ rest, a⟩ = (some (digitsVal 0 ds), ⟨rest, a⟩) := by
  match ds, hne with
  | d :: ds', _ =>
    have hd : isDigit d = true := hds d (by simp)
    have h1 : take_u8_if isDigit ⟨d :: (ds' ++ rest), a⟩ = (some d, ⟨ds' ++ rest, a⟩) := by
      simp [take_u8_if, hd]
    have hv' : digitsVal (d - 48) ds' ≤ maxU64 := by
      rw [← digitsVal_cons0]
      exact hval
    have h2 : take_digits_usize (d - 48) (ds' ++ rest) = (some (digitsVal (d - 48) ds'), rest) :=
      take_digits_usize_eq ds' (d - 48) (fun x hx => hds x (by simp [hx])) hrest hv'
    show take_usize ⟨d :: (ds' ++ rest), a⟩ = _
    simp only [take_usize, h1, h2, digitsVal_cons0]

theorem take_i64_body {d : Nat} {ds' rest : List Nat} {a : Nat}
    (hds : ∀ x ∈ d :: ds', isDigit x = true) (hrest : noDigitHead rest)
    (hval : (digitsVal 0 (d :: ds') : Int) ≤ maxI64) :
    take_u8_if isDigit ⟨d :: (ds' ++ rest), a⟩ = (some d, ⟨ds' ++ rest, a⟩) ∧
    take_digits_i64 ((d - 48 : Nat) : Int) (ds' ++ rest) =
      (some ((digitsVal 0 (d :: ds') : Nat) : Int), rest) := by
  have hd : isDigit d = true := hds d (by simp)
  have hv' : valI ((d - 48 : Nat) : Int) ds' ≤ maxI64 := by
    rw [valI_cast, ← digitsVal_cons0]
    exact hval
  have h2 : take_digits_i64 ((d - 48 : Nat) : Int) (ds' ++ rest) =
      (some (valI ((d - 48 : Nat) : Int) ds'), rest) :=
    take_digits_i64_eq ds' (fun x hx => hds x (by simp [hx])) hrest
      (Int.natCast_nonneg _) hv'
  have hvc : valI ((d - 48 : Nat) : Int) ds' = ((digitsVal 0 (d :: ds') : Nat) : Int) := by
    rw [valI_cast, digitsVal_cons0]
  refine ⟨by simp [take_u8_if, hd], ?_⟩
  rw [h2, hvc]

theorem take_i64_eq_pos {ds rest : List Nat} {a : Nat} (hne : ds ≠ [])
    (hds : ∀ d ∈ ds, isDigit d = true) (hrest : noDigitHead rest)
    (hval : (digitsVal 0 ds : Int) ≤ maxI64) :
    take_i64 ⟨ds ++ rest, a⟩ = (some ((digitsVal 0 ds : Nat) : Int), ⟨rest, a⟩) := by
  match ds, hne with
  | d :: ds', _ =>
    obtain ⟨h1, h2⟩ := @take_i64_body d ds' rest a hds hrest hval
    have hd : isDigit d = true := hds d (by simp)
    have hd48 : 48 ≤ d := by
      simp only [isDigit, Bool.and_eq_true, decide_eq_true_eq] at hd
      exact hd.1
    have hsg : take_u8_eq 45 ⟨d :: (ds' ++ rest), a⟩ =
        (none, ⟨d :: (ds' ++ rest), a⟩) := by
      have : d ≠ 45 := by omega
      simp [take_u8_eq, this]
    show take_i64 ⟨d :: (ds' ++ rest), a⟩ = _
    simp only [take_i64, hsg, h1, h2]

theorem take_i64_eq_neg {ds rest : List Nat} {a : Nat} (hne : ds ≠ [])
    (hds : ∀ d ∈ ds, isDigit d = true) (hrest : noDigitHead rest)
    (hval : (digitsVal 0 ds : Int) ≤ maxI64) :
    take_i64 ⟨45 :: (ds ++ rest), a⟩ = (some (-((digitsVal 0 ds : Nat) : Int)), ⟨rest, a⟩) := by
  match ds, hne with
  | d :: ds', _ =>
    obtain ⟨h1, h2⟩ := @take_i64_body d ds' rest a hds hrest hval
    have hsg : take_u8_eq 45 ⟨45 :: (d :: (ds' ++ rest)), a⟩ =
        (some (), ⟨d :: (ds' ++ rest), a⟩) := by
      simp [take_u8_eq]
    show take_i64 ⟨45 :: (d :: (ds' ++ rest)), a⟩ = _
    simp only [take_i64, hsg, h1, h2]

theorem take_i64_overflow_body {d : Nat} {ds' rest : List Nat}
    (hds : ∀ x ∈ d :: ds', isDigit x = true)
    (hval : maxI64 < (digitsVal 0 (d :: ds') : Int)) :
    ∃ t, take_digits_i64 ((d - 48 : Nat) : Int) (ds' ++ rest) = (none, t) := by
  have hd : isDigit d = true := hds d (by simp)
  have hd48 : 48 ≤ d ∧ d ≤ 57 := by
    simp only [isDigit, Bool.and_eq_true, decide_eq_true_eq] at hd
    exact hd
  have hr0 : (0 : Int) ≤ ((d - 48 : Nat) : Int) := Int.natCast_nonneg _
  have hrle : ((d - 48 : Nat) : Int) ≤ maxI64 := by
    have : d - 48 ≤ 9 := by omega
    simp only [maxI64]
    omega
  have hvo : maxI64 < valI ((d - 48 : Nat) : Int) ds' := by
    rw [valI_cast, ← digitsVal_cons0]
    exact hval
  exact @take_digits_i64_overflow ds' rest ((d - 48 : Nat) : Int)
    (fun x hx => hds x (by simp [hx])) hr0 hrle hvo

theorem take_i64_overflow_pos {ds rest : List Nat} {a : Nat} (hne : ds ≠ [])
    (hds : ∀ d ∈ ds, isDigit d = true)
    (hval : maxI64 < (digitsVal 0 ds : Int)) :
    ∃ b, take_i64 ⟨ds ++ rest, a⟩ = (none, ⟨b, a⟩) := by
  match ds, hne with
  | d :: ds', _ =>
    obtain ⟨t, ht⟩ := @take_i64_overflow_body d ds' rest hds hval
    have hd : isDigit d = true := hds d (by simp)
    have hd48 : 48 ≤ d := by
      simp only [isDigit, Bool.and_eq_true, decide_eq_true_eq] at hd
      exact hd.1
    have hsg : take_u8_eq 45 ⟨d :: (ds' ++ rest), a⟩ =
        (none, ⟨d :: (ds' ++ rest), a⟩) := by
      have : d ≠ 45 := by omega
      simp [take_u8_eq, this]
    have h1 : take_u8_if isDigit ⟨d :: (ds' ++ rest), a⟩ = (some d, ⟨ds' ++ rest, a⟩) := by
      simp [take_u8_if, hd]
    refine ⟨t, ?_⟩
    show take_i64 ⟨d :: (ds' ++ rest), a⟩ = _
    simp only [take_i64, hsg, h1, ht]

theorem take_i64_overflow_neg {ds rest : List Nat} {a : Nat} (hne : ds ≠ [])
    (hds : ∀ d ∈ ds, isDigit d = true)
    (hval : maxI64 < (digitsVal 0 ds : Int)) :
    ∃ b, take_i64 ⟨45 :: (ds ++ rest), a⟩ = (none, ⟨b, a⟩) := by
  match ds, hne with
  | d :: ds', _ =>
    obtain ⟨t, ht⟩ := @take_i64_overflow_body d ds' rest hds hval
    have hd : isDigit d = true := hds d (by simp)
    have hsg : take_u8_eq 45 ⟨45 :: (d :: (ds' ++ rest)), a⟩ =
        (some (), ⟨d :: (ds' ++ rest), a⟩) := by
      simp [take_u8_eq]
    have h1 : take_u8_if isDigit ⟨d :: (ds' ++ rest), a⟩ = (some d, ⟨ds' ++ rest, a⟩) := by
      simp [take_u8_if, hd]
    refine ⟨t, ?_⟩
    show take_i64 ⟨45 :: (d :: (ds' ++ rest)), a⟩ = _
    simp only [take_i64, hsg, h1, ht]

theorem take_str_eq {data rest : List Nat} {a : Nat} (hlen : data.length ≤ maxU64) :
    take_str ⟨encStr data ++ rest, a⟩ = (some data, ⟨rest, a⟩) := by
  have hu : take_usize ⟨raw_u64 data.length ++ (58 :: (data ++ rest)), a⟩ =
      (some (digitsVal 0 (raw_u64 data.length)), ⟨58 :: (data ++ rest), a⟩) :=
    take_usize_eq raw_u64_ne_nil raw_u64_digits
      (noDigitHead_cons (by simp [isDigit])) (by rw [raw_u64_val hlen]; exact hlen)
  have hcolon : take_u8_eq 58 ⟨58 :: (data ++ rest), a⟩ = (some (), ⟨data ++ rest, a⟩) := by
    simp [take_u8_eq]
  have hslice : take_u8_slice data.length ⟨data ++ rest, a⟩ = (some data, ⟨rest, a⟩) := by
    simp [take_u8_slice, List.take_left, List.drop_left]
  have harr : encStr data ++ rest = raw_u64 data.length ++ (58 :: (data ++ rest)) := by
    simp [encStr]
  rw [harr]
  simp only [take_str, hu, hcolon, hslice, raw_u64_val hlen]

theorem take_int_eq {i : Int} {rest : List Nat} {a : Nat}
    (hlo : minI64 < i) (hhi : i ≤ maxI64) :
    take_int ⟨encodeVal (Value.int i) ++ rest, a⟩ = (some i, ⟨rest, a⟩) := by
  have habs : (i.natAbs : Int) ≤ maxI64 := by
    simp only [minI64, maxI64] at *
    omega
  have habsn : i.natAbs ≤ maxU64 := by
    have h20 : (i.natAbs : Int) ≤ 2 ^ 63 - 1 := by simpa [maxI64] using habs
    simp only [maxU64]
    omega
  have hdig : digitsVal 0 (raw_u64 i.natAbs) = i.natAbs := raw_u64_val habsn
  have hnd : noDigitHead (101 :: rest) := noDigitHead_cons (by simp [isDigit])
  have hee : take_u8_eq 101 (⟨101 :: rest, a⟩ : DState) = (some (), ⟨rest, a⟩) := by
    simp [take_u8_eq]
  by_cases hneg : i < 0
  · have harr : encodeVal (Value.int i) ++ rest =
        105 :: (45 :: (raw_u64 i.natAbs ++ (101 :: rest))) := by
      show (105 :: ((if i < 0 then [45] else []) ++ raw_u64 i.natAbs ++ [101])) ++ rest = _
      rw [if_pos hneg]
      simp
    have hi' : take_i64 ⟨45 :: (raw_u64 i.natAbs ++ (101 :: rest)), a⟩ =
        (some (-((digitsVal 0 (raw_u64 i.natAbs) : Nat) : Int)), ⟨101 :: rest, a⟩) :=
      take_i64_eq_neg raw_u64_ne_nil raw_u64_digits hnd (by rw [hdig]; exact habs)
    rw [hdig] at hi'
    have hival : -((i.natAbs : Nat) : Int) = i := by omega
    rw [hival] at hi'
    have hie : take_u8_eq 105 ⟨105 :: (45 :: (raw_u64 i.natAbs ++ (101 :: rest))), a⟩ =
        (some (), ⟨45 :: (raw_u64 i.natAbs ++ (101 :: rest)), a⟩) := by
      simp [take_u8_eq]
    rw [harr]
    simp only [take_int, hie, hi', hee]
  · have harr : encodeVal (Value.int i) ++ rest =
        105 :: (raw_u64 i.natAbs ++ (101 :: rest)) := by
      show (105 :: ((if i < 0 then [45] else []) ++ raw_u64 i.natAbs ++ [101])) ++ rest = _
      rw [if_neg hneg]
      simp
    have hi' : take_i64 ⟨raw_u64 i.natAbs ++ (101 :: rest), a⟩ =
        (some ((digitsVal 0 (raw_u64 i.natAbs) : Nat) : Int), ⟨101 :: rest, a⟩) :=
      take_i64_eq_pos raw_u64_ne_nil raw_u64_digits hnd (by rw [hdig]; exact habs)
    rw [hdig] at hi'
    have hival : ((i.natAbs : Nat) : Int) = i := by omega
    rw [hival] at hi'
    have hie : take_u8_eq 105 ⟨105 :: (raw_u64 i.natAbs ++ (101 :: rest)), a⟩ =
        (some (), ⟨raw_u64 i.natAbs ++ (101 :: rest), a⟩) := by
      simp [take_u8_eq]
    rw [harr]
    simp only [take_int, hie, hi', hee]

/-! ## Fuel adequacy measure and decoder step lemmas -/

mutual

/-- Fuel sufficient for `take_value` to parse the canonical encoding of `v`
(any fuel at least this large yields the same successful parse). -/
def needVal : Value → Nat
  | .int _ => 1
  | .str _ => 1
  | .list l => needListLoop l + 2
  | .dict d => needDictLoop d + 2

/-- Fuel sufficient for `take_list_loop` over the encodings of `es`. -/
def needListLoop : List Value → Nat
  | [] => 1
  | v :: vs => max (needVal v) (needListLoop vs) + 1

/-- Fuel sufficient for `take_dict_loop` over the encodings of `d`. -/
def needDictLoop : List (Cow × Value) → Nat
  | [] => 1
  | (_, v) :: rest => max (needVal v) (needDictLoop rest) + 1

end

/-- Structural induction principle for the nested inductive `Value`, with
pointwise hypotheses for container members. -/
theorem Value.inductionOn {P : Value → Prop}
    (hint : ∀ i, P (Value.int i)) (hstr : ∀ s, P (Value.str s))
    (hlist : ∀ l, (∀ v ∈ l, P v) → P (Value.list l))
    (hdict : ∀ d, (∀ e ∈ d, P e.2) → P (Value.dict d)) :
    ∀ v, P v
  | .int i => hint i
  | .str s => hstr s
  | .list l => hlist l (fun v hv =>
      have : sizeOf v < 1 + sizeOf l := by
        have := List.sizeOf_lt_of_mem hv
        omega
      Value.inductionOn hint hstr hlist hdict v)
  | .dict d => hdict d (fun e he =>
      have : sizeOf e.2 < 1 + sizeOf d := by
        have h1 := List.sizeOf_lt_of_mem he
        have h2 : sizeOf e.2 < sizeOf e := by
          obtain ⟨k, v⟩ := e
          simp
        omega
      Value.inductionOn hint hstr hlist hdict e.2)
termination_by v => sizeOf v
decreasing_by
  · simpa using this
  · simpa using this

theorem take_value_int_step (f n : Nat) (t : List Nat) :
    take_value (f + 1) ⟨105 :: t, n⟩ =
      (match take_int ⟨105 :: t, n⟩ with
       | (none, s') => (none, s')
       | (some i, s') => (some (Value.int i), s')) := rfl

theorem take_value_list_step (f n : Nat) (t : List Nat) :
    take_value (f + 1) ⟨108 :: t, n⟩ =
      (match take_list f ⟨108 :: t, n⟩ with
       | (none, s') => (none, s')
       | (some l, s') => (some (Value.list l), s')) := rfl

theorem take_value_dict_step (f n : Nat) (t : List Nat) :
    take_value (f + 1) ⟨100 :: t, n⟩ =
      (match take_dict f ⟨100 :: t, n⟩ with
       | (none, s') => (none, s')
       | (some d, s') => (some (Value.dict d), s')) := rfl

theorem take_value_str_step (f n c : Nat) (t : List Nat) (h105 : c ≠ 105)
    (h108 : c ≠ 108) (h100 : c ≠ 100) (hc : isDigit c = true) :
    take_value (f + 1) ⟨c :: t, n⟩ =
      (match take_str ⟨c :: t, n⟩ with
       | (none, s') => (none, s')
       | (some b, s') => (some (Value.str (Cow.borrowed b)), s')) := by
  rw [take_value.eq_2]
  show (if c = 105 then _ else if c = 108 then _ else if c = 100 then _
    else if isDigit c then _ else _) = _
  rw [if_neg h105, if_neg h108, if_neg h100, if_pos hc]

theorem take_list_unfold (f : Nat) (s : DState) :
    take_list (f + 1) s =
      (match take_u8_eq 108 s with
       | (none, s1) => (none, s1)
       | (some _, s1) =>
         match take_list_loop f s1 with
         | (none, s2) => (none, s2)
         | (some l, s2) =>
           match take_u8_eq 101 s2 with
           | (none, s3) => (none, s3)
           | (some _, s3) => (some l, s3)) := rfl

theorem take_dict_unfold (f : Nat) (s : DState) :
    take_dict (f + 1) s =
      (match take_u8_eq 100 s with
       | (none, s1) => (none, s1)
       | (some _, s1) =>
         match take_dict_loop f [] s1 with
         | (none, s2) => (none, s2)
         | (some d, s2) =>
           match take_u8_eq 101 s2 with
           | (none, s3) => (none, s3)
           | (some _, s3) => (some d, s3)) := rfl

theorem take_list_loop_exit (f n : Nat) (t : List Nat) :
    take_list_loop (f + 1) ⟨101 :: t, n⟩ = (some [], ⟨101 :: t, n⟩) := rfl

theorem take_list_loop_step (f n c : Nat) (t : List Nat) (hc : c ≠ 101) :
    take_list_loop (f + 1) ⟨c :: t, n⟩ =
      (match alloc 1 ⟨c :: t, n⟩ with
       | (none, s1) => (none, s1)
       | (some _, s1) =>
         match take_value f s1 with
         | (none, s2) => (none, s2)
         | (some v, s2) =>
           match take_list_loop f s2 with
           | (none, s3) => (none, s3)
           | (some vs, s3) => (some (v :: vs), s3)) := by
  rw [take_list_loop.eq_2]
  show (if c = 101 then _ else _) = _
  rw [if_neg hc]

theorem take_dict_loop_unfold (f : Nat) (acc : List (Cow × Value)) (s : DState) :
    take_dict_loop (f + 1) acc s =
      (match take_str s with
       | (none, s1) => (some acc, s1)
       | (some k, s1) =>
         match alloc 1 s1 with
         | (none, s2) => (none, s2)
         | (some _, s2) =>
           match take_value f s2 with
           | (none, s3) => (none, s3)
           | (some v, s3) =>
             match dictInsert (Cow.borrowed k) v acc with
             | none => (none, s3)
             | some acc' => take_dict_loop f acc' s3) := rfl

/-- Every canonical encoding is nonempty and starts with the byte its
`take_value` dispatch case expects. -/
theorem encodeVal_shape (v : Value) : ∃ c t, encodeVal v = c :: t ∧
    (c = 105 ∨ c = 108 ∨ c = 100 ∨ isDigit c = true) := by
  cases v with
  | int i => exact ⟨105, _, rfl, Or.inl rfl⟩
  | str s =>
    match h : raw_u64 s.data.length with
    | [] => exact absurd h raw_u64_ne_nil
    | c :: t =>
      refine ⟨c, t ++ (58 :: s.data), ?_, ?_⟩
      · show raw_u64 s.data.length ++ 58 :: s.data = _
        rw [h]
        simp
      · exact Or.inr (Or.inr (Or.inr (raw_u64_digits c (by rw [h]; simp))))
  | list l => exact ⟨108, _, rfl, Or.inr (Or.inl rfl)⟩
  | dict d => exact ⟨100, _, rfl, Or.inr (Or.inr (Or.inl rfl))⟩

/-! ## Round-trip: decoding a canonical encoding -/

/-- The round-trip property of a single tree: with enough budget and fuel,
`take_value` parses the canonical encoding (followed by anything) back into
the borrowed version of the tree, consuming exactly the encoding and exactly
`countVal` budget units. -/
def RTval (T : Value) : Prop :=
  ∀ (f n : Nat) (rest : List Nat),
    validVal T = true → hasMinInt T = false → countVal T ≤ n → needVal T ≤ f →
    take_value f ⟨encodeVal T ++ rest, n⟩ = (some (strip T), ⟨rest, n - countVal T⟩)

theorem rt_int (i : Int) : RTval (Value.int i) := by
  intro f n rest hv hm hc hf
  have hb : minI64 ≤ i ∧ i ≤ maxI64 := by
    simp only [validVal, Bool.and_eq_true, decide_eq_true_eq] at hv
    exact hv
  have hne : i ≠ minI64 := by
    simp only [hasMinInt, decide_eq_false_iff_not] at hm
    exact hm
  have hlo : minI64 < i := lt_of_le_of_ne hb.1 (Ne.symm hne)
  obtain ⟨f', rfl⟩ : ∃ f', f = f' + 1 := ⟨f - 1, by simp only [needVal] at hf; omega⟩
  have harr : encodeVal (Value.int i) ++ rest =
      105 :: (((if i < 0 then [45] else []) ++ raw_u64 i.natAbs ++ [101]) ++ rest) := rfl
  have hint : take_int ⟨encodeVal (Value.int i) ++ rest, n⟩ = (some i, ⟨rest, n⟩) :=
    take_int_eq hlo hb.2
  rw [harr, take_value_int_step, ← harr, hint]
  show (some (Value.int i), (⟨rest, n⟩ : DState)) = (some (strip (Value.int i)), ⟨rest, n - countVal (Value.int i)⟩)
  simp [strip, countVal]

theorem rt_str (s : Cow) : RTval (Value.str s) := by
  intro f n rest hv hm hc hf
  have hlen : s.data.length ≤ maxU64 := by
    simp only [validVal, decide_eq_true_eq] at hv
    exact hv
  obtain ⟨f', rfl⟩ : ∃ f', f = f' + 1 := ⟨f - 1, by simp only [needVal] at hf; omega⟩
  match hr : raw_u64 s.data.length with
  | [] => exact absurd hr raw_u64_ne_nil
  | c :: t =>
    have hcd : isDigit c = true := raw_u64_digits c (by rw [hr]; simp)
    have hc57 : 48 ≤ c ∧ c ≤ 57 := by
      simp only [isDigit, Bool.and_eq_true, decide_eq_true_eq] at hcd
      exact hcd
    have hbuf : encodeVal (Value.str s) ++ rest = c :: (t ++ (58 :: (s.data ++ rest))) := by
      show encStr s.data ++ rest = _
      simp only [encStr, hr]
      simp
    have hstr : take_str ⟨encodeVal (Value.str s) ++ rest, n⟩ = (some s.data, ⟨rest, n⟩) := by
      show take_str ⟨encStr s.data ++ rest, n⟩ = _
      rw [show encStr s.data ++ rest = encStr s.data ++ rest from rfl]
      exact take_str_eq hlen
    rw [hbuf, take_value_str_step f' n c _ (by omega) (by omega) (by omega) hcd, ← hbuf, hstr]
    show (some (Value.str (Cow.borrowed s.data)), (⟨rest, n⟩ : DState)) =
      (some (strip (Value.str s)), ⟨rest, n - countVal (Value.str s)⟩)
    simp [strip, countVal]

theorem rt_list_loop (es : List Value) (hmem : ∀ v ∈ es, RTval v) :
    ∀ (f n : Nat) (rest : List Nat), validList es = true → hasMinIntList es = false →
    countList es ≤ n → needListLoop es ≤ f →
    take_list_loop f ⟨encodeList es ++ (101 :: rest), n⟩ =
      (some (stripList es), ⟨101 :: rest, n - countList es⟩) := by
  induction es with
  | nil =>
    intro f n rest _ _ _ hf
    obtain ⟨f', rfl⟩ : ∃ f', f = f' + 1 := ⟨f - 1, by simp only [needListLoop] at hf; omega⟩
    show take_list_loop (f' + 1) ⟨101 :: rest, n⟩ = _
    rw [take_list_loop_exit]
    simp [stripList, countList]
  | cons v vs ih =>
    intro f n rest hv hm hc hf
    have hvv : validVal v = true ∧ validList vs = true := by
      simp only [validList, Bool.and_eq_true] at hv
      exact hv
    have hmm : hasMinInt v = false ∧ hasMinIntList vs = false := by
      simp only [hasMinIntList, Bool.or_eq_false_iff] at hm
      exact hm
    have hcc : 1 + countVal v + countList vs ≤ n := by
      simp only [countList] at hc
      exact hc
    have hff : max (needVal v) (needListLoop vs) + 1 ≤ f := by
      simp only [needListLoop] at hf
      exact hf
    have hmax1 := le_max_left (needVal v) (needListLoop vs)
    have hmax2 := le_max_right (needVal v) (needListLoop vs)
    obtain ⟨f', rfl⟩ : ∃ f', f = f' + 1 := ⟨f - 1, by omega⟩
    obtain ⟨c, t0, hct, hcase⟩ := encodeVal_shape v
    have hcne : c ≠ 101 := by
      rcases hcase with rfl | rfl | rfl | h
      · decide
      · decide
      · decide
      · simp only [isDigit, Bool.and_eq_true, decide_eq_true_eq] at h
        omega
    have hbuf : encodeList (v :: vs) ++ (101 :: rest) =
        c :: (t0 ++ (encodeList vs ++ (101 :: rest))) := by
      show (encodeVal v ++ encodeList vs) ++ (101 :: rest) = _
      rw [hct]
      simp
    have hbuf2 : encodeVal v ++ (encodeList vs ++ (101 :: rest)) =
        c :: (t0 ++ (encodeList vs ++ (101 :: rest))) := by
      rw [hct]
      simp
    have ha : alloc 1 ⟨c :: (t0 ++ (encodeList vs ++ (101 :: rest))), n⟩ =
        (some (), ⟨c :: (t0 ++ (encodeList vs ++ (101 :: rest))), n - 1⟩) := by
      simp only [alloc]
      rw [if_pos (by omega)]
    have hvstep : take_value f' ⟨encodeVal v ++ (encodeList vs ++ (101 :: rest)), n - 1⟩ =
        (some (strip v), ⟨encodeList vs ++ (101 :: rest), (n - 1) - countVal v⟩) :=
      hmem v (by simp) f' (n - 1) _ hvv.1 hmm.1 (by omega) (by omega)
    rw [hbuf2] at hvstep
    have hloop : take_list_loop f' ⟨encodeList vs ++ (101 :: rest), (n - 1) - countVal v⟩ =
        (some (stripList vs), ⟨101 :: rest, ((n - 1) - countVal v) - countList vs⟩) :=
      ih (fun x hx => hmem x (by simp [hx])) f' ((n - 1) - countVal v) rest
        hvv.2 hmm.2 (by omega) (by omega)
    rw [hbuf, take_list_loop_step f' n c _ hcne]
    simp only [ha, hvstep, hloop]
    show (some (strip v :: stripList vs),
        (⟨101 :: rest, ((n - 1) - countVal v) - countList vs⟩ : DState)) = _
    have harith : ((n - 1) - countVal v) - countList vs = n - countList (v :: vs) := by
      simp only [countList]
      omega
    rw [harith]
    rfl

theorem rt_list (l : List Value) (hmem : ∀ v ∈ l, RTval v) : RTval (Value.list l) := by
  intro f n rest hv hm hc hf
  simp only [needVal] at hf
  simp only [validVal] at hv
  simp only [hasMinInt] at hm
  simp only [countVal] at hc ⊢
  obtain ⟨f', rfl⟩ : ∃ f', f = f' + 2 := ⟨f - 2, by omega⟩
  have hbuf : encodeVal (Value.list l) ++ rest = 108 :: (encodeList l ++ (101 :: rest)) := by
    show (108 :: (encodeList l ++ [101])) ++ rest = _
    simp
  have h108 : take_u8_eq 108 ⟨108 :: (encodeList l ++ (101 :: rest)), n⟩ =
      (some (), ⟨encodeList l ++ (101 :: rest), n⟩) := by
    simp [take_u8_eq]
  have hloop : take_list_loop f' ⟨encodeList l ++ (101 :: rest), n⟩ =
      (some (stripList l), ⟨101 :: rest, n - countList l⟩) :=
    rt_list_loop l hmem f' n rest hv hm hc (by omega)
  have he : take_u8_eq 101 (⟨101 :: rest, n - countList l⟩ : DState) =
      (some (), ⟨rest, n - countList l⟩) := by
    simp [take_u8_eq]
  rw [hbuf]
  rw [show f' + 2 = (f' + 1) + 1 from rfl, take_value_list_step, take_list_unfold]
  simp only [h108, hloop, he]
  rfl

/-- `take_str` fails without consuming anything when the first byte is not a
digit (this is how the dictionary-entry loop terminates at `e`). -/
theorem take_str_no_digit {c : Nat} {t : List Nat} {n : Nat} (hc : isDigit c = false) :
    take_str ⟨c :: t, n⟩ = (none, ⟨c :: t, n⟩) := by
  have h1 : take_u8_if isDigit ⟨c :: t, n⟩ = (none, ⟨c :: t, n⟩) := by
    simp [take_u8_if, hc]
  have h2 : take_usize ⟨c :: t, n⟩ = (none, ⟨c :: t, n⟩) := by
    simp only [take_usize, h1]
  simp only [take_str, h2]

theorem rt_dict_loop (d : List (Cow × Value)) (hmem : ∀ e ∈ d, RTval e.2) :
    ∀ (f n : Nat) (rest : List Nat) (acc : List (Cow × Value)),
    validDict d = true → hasMinIntDict d = false → keysSorted d = true →
    countDict d ≤ n → needDictLoop d ≤ f →
    (∀ e ∈ acc, ∀ e' ∈ d, bytesLt e.1.data e'.1.data = true) →
    take_dict_loop f acc ⟨encodeDict d ++ (101 :: rest), n⟩ =
      (some (acc ++ stripDict d), ⟨101 :: rest, n - countDict d⟩) := by
  induction d with
  | nil =>
    intro f n rest acc _ _ _ _ hf _
    obtain ⟨f', rfl⟩ : ∃ f', f = f' + 1 := ⟨f - 1, by simp only [needDictLoop] at hf; omega⟩
    show take_dict_loop (f' + 1) acc ⟨101 :: rest, n⟩ = _
    rw [take_dict_loop_unfold]
    rw [take_str_no_digit (by simp [isDigit])]
    simp [stripDict, countDict]
  | cons e restd ih =>
    obtain ⟨k, v⟩ := e
    intro f n rest acc hv hm hs hc hf hacc
    have hvv : k.data.length ≤ maxU64 ∧ validVal v = true ∧ validDict restd = true := by
      simp only [validDict, Bool.and_eq_true, decide_eq_true_eq] at hv
      exact ⟨hv.1.1, hv.1.2, hv.2⟩
    have hmm : hasMinInt v = false ∧ hasMinIntDict restd = false := by
      simp only [hasMinIntDict, Bool.or_eq_false_iff] at hm
      exact hm
    have hcc : 1 + countVal v + countDict restd ≤ n := by
      simp only [countDict] at hc
      exact hc
    have hff : max (needVal v) (needDictLoop restd) + 1 ≤ f := by
      simp only [needDictLoop] at hf
      exact hf
    have hmax1 := le_max_left (needVal v) (needDictLoop restd)
    have hmax2 := le_max_right (needVal v) (needDictLoop restd)
    obtain ⟨f', rfl⟩ : ∃ f', f = f' + 1 := ⟨f - 1, by omega⟩
    have hbuf : encodeDict ((k, v) :: restd) ++ (101 :: rest) =
        encStr k.data ++ (encodeVal v ++ (encodeDict restd ++ (101 :: rest))) := by
      show (encStr k.data ++ encodeVal v ++ encodeDict restd) ++ (101 :: rest) = _
      simp
    have hstr : take_str ⟨encStr k.data ++ (encodeVal v ++ (encodeDict restd ++ (101 :: rest))), n⟩ =
        (some k.data, ⟨encodeVal v ++ (encodeDict restd ++ (101 :: rest)), n⟩) :=
      take_str_eq hvv.1
    have halloc : alloc 1 (⟨encodeVal v ++ (encodeDict restd ++ (101 :: rest)), n⟩ : DState) =
        (some (), ⟨encodeVal v ++ (encodeDict restd ++ (101 :: rest)), n - 1⟩) := by
      simp only [alloc]
      rw [if_pos (by omega)]
    have hme : RTval v := hmem (k, v) (by simp)
    have hvstep : take_value f' ⟨encodeVal v ++ (encodeDict restd ++ (101 :: rest)), n - 1⟩ =
        (some (strip v), ⟨encodeDict restd ++ (101 :: rest), (n - 1) - countVal v⟩) :=
      hme f' (n - 1) _ hvv.2.1 hmm.1 (by omega) (by omega)
    have hins : dictInsert (Cow.borrowed k.data) (strip v) acc =
        some (acc ++ [(Cow.borrowed k.data, strip v)]) :=
      dictInsert_append (fun e he => hacc e he (k, v) (by simp))
    have hacc' : ∀ e ∈ acc ++ [(Cow.borrowed k.data, strip v)], ∀ e' ∈ restd,
        bytesLt e.1.data e'.1.data = true := by
      intro e he e' he'
      rcases List.mem_append.mp he with h | h
      · exact hacc e h e' (List.mem_cons_of_mem _ he')
      · have : e = (Cow.borrowed k.data, strip v) := by simpa using h
        subst this
        exact keysSorted_head_lt hs e' he'
    have hloop : take_dict_loop f' (acc ++ [(Cow.borrowed k.data, strip v)])
        ⟨encodeDict restd ++ (101 :: rest), (n - 1) - countVal v⟩ =
        (some ((acc ++ [(Cow.borrowed k.data, strip v)]) ++ stripDict restd),
          ⟨101 :: rest, ((n - 1) - countVal v) - countDict restd⟩) :=
      ih (fun x hx => hmem x (by simp [hx])) f' ((n - 1) - countVal v) rest
        (acc ++ [(Cow.borrowed k.data, strip v)]) hvv.2.2 hmm.2 (keysSorted_cons hs)
        (by omega) (by omega) hacc'
    rw [hbuf, take_dict_loop_unfold]
    simp only [hstr, halloc, hvstep, hins, hloop]
    have harith : ((n - 1) - countVal v) - countDict restd = n - countDict ((k, v) :: restd) := by
      simp only [countDict]
      omega
    rw [harith]
    show (some ((acc ++ [(Cow.borrowed k.data, strip v)]) ++ stripDict restd), _) = _
    rw [List.append_assoc]
    rfl

theorem rt_dict (d : List (Cow × Value)) (hmem : ∀ e ∈ d, RTval e.2) :
    RTval (Value.dict d) := by
  intro f n rest hv hm hc hf
  simp only [needVal] at hf
  have hv' : keysSorted d = true ∧ validDict d = true := by
    simp only [validVal, Bool.and_eq_true] at hv
    exact hv
  simp only [hasMinInt] at hm
  simp only [countVal] at hc ⊢
  obtain ⟨f', rfl⟩ : ∃ f', f = f' + 2 := ⟨f - 2, by omega⟩
  have hbuf : encodeVal (Value.dict d) ++ rest = 100 :: (encodeDict d ++ (101 :: rest)) := by
    show (100 :: (encodeDict d ++ [101])) ++ rest = _
    simp
  have h100 : take_u8_eq 100 ⟨100 :: (encodeDict d ++ (101 :: rest)), n⟩ =
      (some (), ⟨encodeDict d ++ (101 :: rest), n⟩) := by
    simp [take_u8_eq]
  have hloop : take_dict_loop f' [] ⟨encodeDict d ++ (101 :: rest), n⟩ =
      (some ([] ++ stripDict d), ⟨101 :: rest, n - countDict d⟩) :=
    rt_dict_loop d hmem f' n rest [] hv'.2 hm hv'.1 hc (by omega)
      (fun e he => absurd he (List.not_mem_nil e))
  have he : take_u8_eq 101 (⟨101 :: rest, n - countDict d⟩ : DState) =
      (some (), ⟨rest, n - countDict d⟩) := by
    simp [take_u8_eq]
  rw [hbuf]
  rw [show f' + 2 = (f' + 1) + 1 from rfl, take_value_dict_step, take_dict_unfold]
  simp only [h100, hloop, he]
  rfl

/-- The full round-trip lemma: every valid tree without `i64::MIN` parses
back from its canonical encoding. -/
theorem roundtrip_val : ∀ T, RTval T :=
  Value.inductionOn rt_int rt_str rt_list rt_dict

theorem encodeVal_length_pos (v : Value) : 1 ≤ (encodeVal v).length := by
  obtain ⟨c, t, hct, _⟩ := encodeVal_shape v
  rw [hct]
  simp

theorem needListLoop_le (es : List Value)
    (h : ∀ v ∈ es, needVal v ≤ 2 * (encodeVal v).length + 1) :
    needListLoop es ≤ 2 * (encodeList es).length + 3 := by
  induction es with
  | nil => simp [needListLoop]
  | cons v vs ih =>
    have h1 : needVal v ≤ 2 * (encodeVal v).length + 1 := h v (by simp)
    have h2 := ih (fun x hx => h x (by simp [hx]))
    have h3 := encodeVal_length_pos v
    simp only [needListLoop, encodeList, List.length_append]
    rcases max_choice (needVal v) (needListLoop vs) with hmx | hmx <;> rw [hmx] <;> omega

theorem needDictLoop_le (d : List (Cow × Value))
    (h : ∀ e ∈ d, needVal e.2 ≤ 2 * (encodeVal e.2).length + 1) :
    needDictLoop d ≤ 2 * (encodeDict d).length + 3 := by
  induction d with
  | nil => simp [needDictLoop]
  | cons e rest ih =>
    obtain ⟨k, v⟩ := e
    have h1 : needVal v ≤ 2 * (encodeVal v).length + 1 := h (k, v) (by simp)
    have h2 := ih (fun x hx => h x (by simp [hx]))
    have h3 := encodeVal_length_pos v
    simp only [needDictLoop, encodeDict, List.length_append]
    rcases max_choice (needVal v) (needDictLoop rest) with hmx | hmx <;> rw [hmx] <;> omega

theorem needVal_le : ∀ T, needVal T ≤ 2 * (encodeVal T).length + 1 := by
  refine Value.inductionOn ?_ ?_ ?_ ?_
  · intro i
    have := encodeVal_length_pos (Value.int i)
    simp only [needVal]
    omega
  · intro s
    have := encodeVal_length_pos (Value.str s)
    simp only [needVal]
    omega
  · intro l hIH
    have hl := needListLoop_le l hIH
    show needListLoop l + 2 ≤ 2 * (108 :: (encodeList l ++ [101])).length + 1
    simp only [List.length_cons, List.length_append]
    omega
  · intro d hIH
    have hd := needDictLoop_le d hIH
    show needDictLoop d + 2 ≤ 2 * (100 :: (encodeDict d ++ [101])).length + 1
    simp only [List.length_cons, List.length_append]
    omega

/-- Decode-level round trip: for every valid tree without `i64::MIN` and
every budget covering its container entries, decoding the canonical encoding
succeeds and returns the borrowed (content-identical) tree. -/
theorem decode_encode (T : Value) (n : Nat) (hv : validVal T = true)
    (hm : hasMinInt T = false) (hc : countVal T ≤ n) :
    Value.decode (encodeVal T) n = some (strip T) := by
  have hf : needVal T ≤ 2 * (encodeVal T).length + 1 := needVal_le T
  have h := roundtrip_val T (2 * (encodeVal T).length + 1) n [] hv hm hc hf
  rw [List.append_nil] at h
  simp only [Value.decode, h]

/-! ## `into_owned` lemmas -/

mutual

theorem intoOwned_encode : ∀ v, encodeVal (intoOwned v) = encodeVal v
  | .int _ => rfl
  | .str _ => rfl
  | .list l => by
    show 108 :: (encodeList (intoOwnedList l) ++ [101]) = _
    rw [intoOwnedList_encode l]
    rfl
  | .dict d => by
    show 100 :: (encodeDict (intoOwnedDict d) ++ [101]) = _
    rw [intoOwnedDict_encode d]
    rfl

theorem intoOwnedList_encode : ∀ l, encodeList (intoOwnedList l) = encodeList l
  | [] => rfl
  | v :: vs => by
    show encodeVal (intoOwned v) ++ encodeList (intoOwnedList vs) = _
    rw [intoOwned_encode v, intoOwnedList_encode vs]
    rfl

theorem intoOwnedDict_encode : ∀ d, encodeDict (intoOwnedDict d) = encodeDict d
  | [] => rfl
  | (k, v) :: rest => by
    show encStr (Cow.owned k.data).data ++ encodeVal (intoOwned v) ++
      encodeDict (intoOwnedDict rest) = _
    rw [intoOwned_encode v, intoOwnedDict_encode rest]
    rfl

end

mutual

theorem intoOwned_noBorrow : ∀ v, hasBorrowed (intoOwned v) = false
  | .int _ => rfl
  | .str _ => rfl
  | .list l => by
    show hasBorrowedList (intoOwnedList l) = false
    rw [intoOwnedList_noBorrow l]

  | .dict d => by
    show hasBorrowedDict (intoOwnedDict d) = false
    rw [intoOwnedDict_noBorrow d]

theorem intoOwnedList_noBorrow : ∀ l, hasBorrowedList (intoOwnedList l) = false
  | [] => rfl
  | v :: vs => by
    show (hasBorrowed (intoOwned v) || hasBorrowedList (intoOwnedList vs)) = false
    rw [intoOwned_noBorrow v, intoOwnedList_noBorrow vs]
    rfl

theorem intoOwnedDict_noBorrow : ∀ d, hasBorrowedDict (intoOwnedDict d) = false
  | [] => rfl
  | (k, v) :: rest => by
    show ((Cow.owned k.data).isBorrowed || hasBorrowed (intoOwned v) ||
      hasBorrowedDict (intoOwnedDict rest)) = false
    rw [intoOwned_noBorrow v, intoOwnedDict_noBorrow rest]
    rfl

end

mutual

theorem intoOwned_strip : ∀ v, strip (intoOwned v) = strip v
  | .int _ => rfl
  | .str _ => rfl
  | .list l => by
    show Value.list (stripList (intoOwnedList l)) = Value.list (stripList l)
    rw [intoOwnedList_strip l]

  | .dict d => by
    show Value.dict (stripDict (intoOwnedDict d)) = Value.dict (stripDict d)
    rw [intoOwnedDict_strip d]

theorem intoOwnedList_strip : ∀ l, stripList (intoOwnedList l) = stripList l
  | [] => rfl
  | v :: vs => by
    show strip (intoOwned v) :: stripList (intoOwnedList vs) = _
    rw [intoOwned_strip v, intoOwnedList_strip vs]
    rfl

theorem intoOwnedDict_strip : ∀ d, stripDict (intoOwnedDict d) = stripDict d
  | [] => rfl
  | (k, v) :: rest => by
    show (Cow.borrowed (Cow.owned k.data).data, strip (intoOwned v)) ::
      stripDict (intoOwnedDict rest) = _
    rw [intoOwned_strip v, intoOwnedDict_strip rest]
    rfl

end

/-! ## Integer grammar lemmas (claim C3) -/

theorem take_int_digits_pos {ds rest : List Nat} {a : Nat} (hne : ds ≠ [])
    (hds : ∀ d ∈ ds, isDigit d = true) (hval : (digitsVal 0 ds : Int) ≤ maxI64) :
    take_int ⟨105 :: (ds ++ (101 :: rest)), a⟩ =
      (some ((digitsVal 0 ds : Nat) : Int), ⟨rest, a⟩) := by
  have hie : take_u8_eq 105 ⟨105 :: (ds ++ (101 :: rest)), a⟩ =
      (some (), ⟨ds ++ (101 :: rest), a⟩) := by
    simp [take_u8_eq]
  have hi64 : take_i64 ⟨ds ++ (101 :: rest), a⟩ =
      (some ((digitsVal 0 ds : Nat) : Int), ⟨101 :: rest, a⟩) :=
    take_i64_eq_pos hne hds (noDigitHead_cons (by simp [isDigit])) hval
  have hee : take_u8_eq 101 (⟨101 :: rest, a⟩ : DState) = (some (), ⟨rest, a⟩) := by
    simp [take_u8_eq]
  simp only [take_int, hie, hi64, hee]

theorem take_int_digits_neg {ds rest : List Nat} {a : Nat} (hne : ds ≠ [])
    (hds : ∀ d ∈ ds, isDigit d = true) (hval : (digitsVal 0 ds : Int) ≤ maxI64) :
    take_int ⟨105 :: (45 :: (ds ++ (101 :: rest))), a⟩ =
      (some (-((digitsVal 0 ds : Nat) : Int)), ⟨rest, a⟩) := by
  have hie : take_u8_eq 105 ⟨105 :: (45 :: (ds ++ (101 :: rest))), a⟩ =
      (some (), ⟨45 :: (ds ++ (101 :: rest)), a⟩) := by
    simp [take_u8_eq]
  have hi64 : take_i64 ⟨45 :: (ds ++ (101 :: rest)), a⟩ =
      (some (-((digitsVal 0 ds : Nat) : Int)), ⟨101 :: rest, a⟩) :=
    take_i64_eq_neg hne hds (noDigitHead_cons (by simp [isDigit])) hval
  have hee : take_u8_eq 101 (⟨101 :: rest, a⟩ : DState) = (some (), ⟨rest, a⟩) := by
    simp [take_u8_eq]
  simp only [take_int, hie, hi64, hee]

theorem take_int_digits_pos_overflow {ds rest : List Nat} {a : Nat} (hne : ds ≠ [])
    (hds : ∀ d ∈ ds, isDigit d = true) (hval : maxI64 < (digitsVal 0 ds : Int)) :
    ∃ b, take_int ⟨105 :: (ds ++ rest), a⟩ = (none, ⟨b, a⟩) := by
  have hie : take_u8_eq 105 ⟨105 :: (ds ++ rest), a⟩ = (some (), ⟨ds ++ rest, a⟩) := by
    simp [take_u8_eq]
  obtain ⟨b, hb⟩ : ∃ b, take_i64 ⟨ds ++ rest, a⟩ = (none, ⟨b, a⟩) :=
    take_i64_overflow_pos hne hds hval
  refine ⟨b, ?_⟩
  simp only [take_int, hie, hb]

theorem take_int_digits_neg_overflow {ds rest : List Nat} {a : Nat} (hne : ds ≠ [])
    (hds : ∀ d ∈ ds, isDigit d = true) (hval : maxI64 < (digitsVal 0 ds : Int)) :
    ∃ b, take_int ⟨105 :: (45 :: (ds ++ rest)), a⟩ = (none, ⟨b, a⟩) := by
  have hie : take_u8_eq 105 ⟨105 :: (45 :: (ds ++ rest)), a⟩ =
      (some (), ⟨45 :: (ds ++ rest), a⟩) := by
    simp [take_u8_eq]
  obtain ⟨b, hb⟩ : ∃ b, take_i64 ⟨45 :: (ds ++ rest), a⟩ = (none, ⟨b, a⟩) :=
    take_i64_overflow_neg hne hds hval
  refine ⟨b, ?_⟩
  simp only [take_int, hie, hb]

/-! ## Every successfully decoded value has sorted dictionaries (claim C5) -/

theorem sortedDict_forall : ∀ d : List (Cow × Value),
    sortedDict d = true ↔ ∀ e ∈ d, sortedVal e.2 = true
  | [] => by simp [sortedDict]
  | (k, v) :: rest => by
    show (sortedVal v && sortedDict rest) = true ↔ _
    rw [Bool.and_eq_true, sortedDict_forall rest]
    constructor
    · intro ⟨h1, h2⟩ e he
      rcases List.mem_cons.mp he with rfl | he'
      · exact h1
      · exact h2 e he'
    · intro hall
      exact ⟨hall (k, v) (by simp), fun e he => hall e (by simp [he])⟩

theorem sorted_decode : ∀ f : Nat,
    (∀ s v s', take_value f s = (some v, s') → sortedVal v = true) ∧
    (∀ s l s', take_list_loop f s = (some l, s') → sortedList l = true) ∧
    (∀ s acc d s', take_dict_loop f acc s = (some d, s') →
      keysSorted acc = true → sortedDict acc = true →
      keysSorted d = true ∧ sortedDict d = true) := by
  intro f
  induction f using Nat.strong_induction_on with
  | _ f ih =>
  match f with
  | 0 =>
    refine ⟨?_, ?_, ?_⟩
    · intro s v s' h
      rw [show take_value 0 s = (none, s) from rfl] at h
      simp at h
    · intro s l s' h
      rw [show take_list_loop 0 s = (none, s) from rfl] at h
      simp at h
    · intro s acc d s' h _ _
      rw [show take_dict_loop 0 acc s = (none, s) from rfl] at h
      simp at h
  | f + 1 =>
    obtain ⟨ihv, ihl, ihd⟩ := ih f (by omega)
    refine ⟨?_, ?_, ?_⟩
    · intro s v s' h
      obtain ⟨buf, n⟩ := s
      cases buf with
      | nil =>
        rw [show take_value (f + 1) ⟨[], n⟩ = (none, ⟨[], n⟩) from rfl] at h
        simp at h
      | cons c t =>
        by_cases h105 : c = 105
        · subst h105
          rw [take_value_int_step] at h
          rcases hti : take_int ⟨105 :: t, n⟩ with ⟨oi, si⟩
          rw [hti] at h
          cases oi with
          | none => simp at h
          | some i =>
            obtain ⟨rfl, rfl⟩ : Value.int i = v ∧ si = s' := by simpa using h
            rfl
        · by_cases h108 : c = 108
          · subst h108
            rw [take_value_list_step] at h
            rcases htl : take_list f ⟨108 :: t, n⟩ with ⟨ol, sl⟩
            rw [htl] at h
            cases ol with
            | none => simp at h
            | some l =>
              obtain ⟨rfl, rfl⟩ : Value.list l = v ∧ sl = s' := by simpa using h
              show sortedList l = true
              match f, htl with
              | 0, htl =>
                rw [show take_list 0 ⟨108 :: t, n⟩ = (none, ⟨108 :: t, n⟩) from rfl] at htl
                simp at htl
              | g + 1, htl =>
                have e1 : take_u8_eq 108 (⟨108 :: t, n⟩ : DState) = (some (), ⟨t, n⟩) := by
                  simp [take_u8_eq]
                rw [take_list_unfold] at htl
                simp only [e1] at htl
                rcases h2 : take_list_loop g ⟨t, n⟩ with ⟨o2, s2⟩
                simp only [h2] at htl
                cases o2 with
                | none => simp at htl
                | some l2 =>
                  rcases h3 : take_u8_eq 101 s2 with ⟨o3, s3⟩
                  simp only [h3] at htl
                  cases o3 with
                  | none => simp at htl
                  | some _ =>
                    obtain ⟨heq, -⟩ : l2 = l ∧ s3 = sl := by simpa using htl
                    rw [← heq]
                    exact (ih g (by omega)).2.1 ⟨t, n⟩ l2 s2 h2
          · by_cases h100 : c = 100
            · subst h100
              rw [take_value_dict_step] at h
              rcases htd : take_dict f ⟨100 :: t, n⟩ with ⟨od, sd⟩
              rw [htd] at h
              cases od with
              | none => simp at h
              | some d =>
                obtain ⟨rfl, rfl⟩ : Value.dict d = v ∧ sd = s' := by simpa using h
                show (keysSorted d && sortedDict d) = true
                rw [Bool.and_eq_true]
                match f, htd with
                | 0, htd =>
                  rw [show take_dict 0 ⟨100 :: t, n⟩ = (none, ⟨100 :: t, n⟩) from rfl] at htd
                  simp at htd
                | g + 1, htd =>
                  have e1 : take_u8_eq 100 (⟨100 :: t, n⟩ : DState) = (some (), ⟨t, n⟩) := by
                    simp [take_u8_eq]
                  rw [take_dict_unfold] at htd
                  simp only [e1] at htd
                  rcases h2 : take_dict_loop g [] ⟨t, n⟩ with ⟨o2, s2⟩
                  simp only [h2] at htd
                  cases o2 with
                  | none => simp at htd
                  | some d2 =>
                    rcases h3 : take_u8_eq 101 s2 with ⟨o3, s3⟩
                    simp only [h3] at htd
                    cases o3 with
                    | none => simp at htd
                    | some _ =>
                      obtain ⟨heq, -⟩ : d2 = d ∧ s3 = sd := by simpa using htd
                      rw [← heq]
                      exact (ih g (by omega)).2.2 ⟨t, n⟩ [] d2 s2 h2 rfl rfl
            · by_cases hdig : isDigit c = true
              · rw [take_value_str_step f n c t h105 h108 h100 hdig] at h
                rcases hts : take_str ⟨c :: t, n⟩ with ⟨os, ss⟩
                rw [hts] at h
                cases os with
                | none => simp at h
                | some b =>
                  obtain ⟨rfl, rfl⟩ : Value.str (Cow.borrowed b) = v ∧ ss = s' := by
                    simpa using h
                  rfl
              · have hnone : take_value (f + 1) ⟨c :: t, n⟩ = (none, ⟨c :: t, n⟩) := by
                  rw [take_value.eq_2]
                  show (if c = 105 then _ else if c = 108 then _ else if c = 100 then _
                    else if isDigit c then _ else _) = _
                  rw [if_neg h105, if_neg h108, if_neg h100, if_neg (by simp [hdig])]
                rw [hnone] at h
                simp at h
    · intro s l s' h
      obtain ⟨buf, n⟩ := s
      cases buf with
      | nil =>
        rw [show take_list_loop (f + 1) ⟨[], n⟩ = (none, ⟨[], n⟩) from rfl] at h
        simp at h
      | cons c t =>
        by_cases h101 : c = 101
        · subst h101
          rw [take_list_loop_exit] at h
          obtain ⟨rfl, rfl⟩ : ([] : List Value) = l ∧ (⟨101 :: t, n⟩ : DState) = s' := by
            simpa using h
          rfl
        · rw [take_list_loop_step f n c t h101] at h
          rcases h1 : alloc 1 ⟨c :: t, n⟩ with ⟨o1, s1⟩
          simp only [h1] at h
          cases o1 with
          | none => simp at h
          | some _ =>
            rcases h2 : take_value f s1 with ⟨o2, s2⟩
            simp only [h2] at h
            cases o2 with
            | none => simp at h
            | some v =>
              rcases h3 : take_list_loop f s2 with ⟨o3, s3⟩
              simp only [h3] at h
              cases o3 with
              | none => simp at h
              | some vs =>
                obtain ⟨heq, -⟩ : v :: vs = l ∧ s3 = s' := by simpa using h
                rw [← heq]
                show (sortedVal v && sortedList vs) = true
                rw [Bool.and_eq_true]
                exact ⟨ihv s1 v s2 h2, ihl s2 vs s3 h3⟩
    · intro s acc d s' h hka hsa
      rw [take_dict_loop_unfold] at h
      rcases h1 : take_str s with ⟨o1, s1⟩
      simp only [h1] at h
      cases o1 with
      | none =>
        obtain ⟨heq, -⟩ : acc = d ∧ s1 = s' := by simpa using h
        rw [← heq]
        exact ⟨hka, hsa⟩
      | some k =>
        rcases h2 : alloc 1 s1 with ⟨o2, s2⟩
        simp only [h2] at h
        cases o2 with
        | none => simp at h
        | some _ =>
          rcases h3 : take_value f s2 with ⟨o3, s3⟩
          simp only [h3] at h
          cases o3 with
          | none => simp at h
          | some v =>
            rcases h4 : dictInsert (Cow.borrowed k) v acc with _ | acc'
            · simp only [h4] at h
              simp at h
            · simp only [h4] at h
              have hka' : keysSorted acc' = true := dictInsert_sorted hka h4
              have hsa' : sortedDict acc' = true := by
                rw [sortedDict_forall]
                intro e he
                rcases dictInsert_mem h4 e he with rfl | hmem
                · exact ihv s2 v s3 h3
                · exact (sortedDict_forall acc).mp hsa e hmem
              exact ihd s3 acc' d s' h hka' hsa'

/-- Decode-level corollary: every successfully decoded value has all its
dictionaries strictly sorted by key bytes. -/
theorem decode_sorted (buf : List Nat) (n : Nat) (v : Value)
    (h : Value.decode buf n = some v) : sortedVal v = true := by
  simp only [Value.decode] at h
  rcases ht : take_value (2 * buf.length + 1) ⟨buf, n⟩ with ⟨o, s'⟩
  rw [ht] at h
  cases o with
  | none => simp at h
  | some w =>
    have hw : w = v := by simpa using h
    rw [← hw]
    exact (sorted_decode (2 * buf.length + 1)).1 ⟨buf, n⟩ w s' ht

/-! ## Minimality of the encoder's digit strings (claim C10) -/

theorem rawFill_head : ∀ (l n : Nat),
    (rawFill n (l + 1)).head? = some (48 + n / 10 ^ l % 10)
  | 0, n => by
    show (rawFill (n / 10) 0 ++ [48 + n % 10]).head? = _
    show ([] ++ [48 + n % 10]).head? = _
    simp
  | l + 1, n => by
    show (rawFill (n / 10) (l + 1) ++ [48 + n % 10]).head? = _
    have ih := rawFill_head l (n / 10)
    match hr : rawFill (n / 10) (l + 1) with
    | [] =>
      have := rawFill_length (l + 1) (n / 10)
      rw [hr] at this
      simp at this
    | c :: t =>
      rw [hr] at ih
      simp only [List.cons_append, List.head?_cons, Option.some.injEq] at ih ⊢
      rw [ih, Nat.div_div_eq_div_mul,
        show 10 * 10 ^ l = 10 ^ (l + 1) from by rw [pow_succ]; ring]

theorem decLenAux_eq_one : ∀ (f n : Nat), 1 ≤ f → decLenAux f n = 1 → n < 10
  | 0, _, hf, _ => by omega
  | f + 1, n, _, h => by
    simp only [decLenAux] at h
    split at h
    · assumption
    · have := decLenAux_pos f (n / 10)
      omega

/-- The encoder's digit string has no leading zero unless it is exactly
`"0"`. -/
theorem raw_u64_minimal {n : Nat} (h : n ≤ maxU64)
    (hd : (raw_u64 n).head? = some 48) : raw_u64 n = [48] := by
  have h20 : n < 10 ^ 20 := lt_of_le_of_lt h maxU64_lt_pow20
  have hpos := decLenAux_pos 20 n
  match hL : decLenAux 20 n with
  | 0 => omega
  | 1 =>
    have hn10 : n < 10 := decLenAux_eq_one 20 n (by norm_num) hL
    have he : raw_u64 n = [48 + n % 10] := by
      show rawFill n (decLenAux 20 n) = _
      rw [hL]
      show rawFill (n / 10) 0 ++ [48 + n % 10] = _
      rfl
    rw [he] at hd ⊢
    simp only [List.head?_cons, Option.some.injEq] at hd
    have : n % 10 = 0 := by omega
    have : n = 0 := by omega
    subst this
    rfl
  | l + 2 =>
    exfalso
    have hmin : 10 ^ (l + 1) ≤ n := by
      have := decLenAux_min 20 n (by omega)
      rw [hL] at this
      simpa using this
    have hbound : n < 10 ^ (l + 2) := by
      have := decLenAux_bound 20 n h20
      rw [hL] at this
      exact this
    have hhead : (raw_u64 n).head? = some (48 + n / 10 ^ (l + 1) % 10) := by
      show (rawFill n (decLenAux 20 n)).head? = _
      rw [hL]
      exact rawFill_head (l + 1) n
    rw [hd] at hhead
    simp only [Option.some.injEq] at hhead
    have hq1 : 1 ≤ n / 10 ^ (l + 1) :=
      (Nat.one_le_div_iff (Nat.pos_pow_of_pos _ (by norm_num))).mpr hmin
    have hq2 : n / 10 ^ (l + 1) < 10 := by
      rw [Nat.div_lt_iff_lt_mul (Nat.pos_pow_of_pos _ (by norm_num))]
      calc n < 10 ^ (l + 2) := hbound
        _ = 10 * 10 ^ (l + 1) := by ring
    have := Nat.mod_eq_of_lt hq2
    omega

/-! ## Decode-level integer grammar theorem (claim C3) -/

theorem decode_int_digits (neg : Bool) (ds : List Nat) (a : Nat) (hne : ds ≠ [])
    (hds : ∀ d ∈ ds, isDigit d = true) :
    Value.decode (105 :: ((if neg then [45] else []) ++ (ds ++ [101]))) a =
      if digitsVal 0 ds ≤ 2 ^ 63 - 1
      then some (Value.int (if neg
        then -((digitsVal 0 ds : Nat) : Int) else ((digitsVal 0 ds : Nat) : Int)))
      else none := by
  cases neg with
  | false =>
    by_cases hval : digitsVal 0 ds ≤ 2 ^ 63 - 1
    · rw [if_pos hval]
      have hvi : (digitsVal 0 ds : Int) ≤ maxI64 := by
        simp only [maxI64]
        omega
      have hti : take_int ⟨105 :: (ds ++ (101 :: [])), a⟩ =
          (some ((digitsVal 0 ds : Nat) : Int), ⟨[], a⟩) :=
        take_int_digits_pos hne hds hvi
      show (take_value (2 * (105 :: (ds ++ [101])).length + 1) ⟨105 :: (ds ++ [101]), a⟩).1 = _
      rw [take_value_int_step, hti]
      rfl
    · rw [if_neg hval]
      have hvo : maxI64 < (digitsVal 0 ds : Int) := by
        simp only [maxI64]
        omega
      obtain ⟨b, hb⟩ : ∃ b, take_int ⟨105 :: (ds ++ [101]), a⟩ = (none, ⟨b, a⟩) :=
        take_int_digits_pos_overflow hne hds hvo
      show (take_value (2 * (105 :: (ds ++ [101])).length + 1) ⟨105 :: (ds ++ [101]), a⟩).1 = _
      rw [take_value_int_step, hb]
  | true =>
    by_cases hval : digitsVal 0 ds ≤ 2 ^ 63 - 1
    · rw [if_pos hval]
      have hvi : (digitsVal 0 ds : Int) ≤ maxI64 := by
        simp only [maxI64]
        omega
      have hti : take_int ⟨105 :: (45 :: (ds ++ (101 :: []))), a⟩ =
          (some (-((digitsVal 0 ds : Nat) : Int)), ⟨[], a⟩) :=
        take_int_digits_neg hne hds hvi
      show (take_value (2 * (105 :: (45 :: (ds ++ [101]))).length + 1)
        ⟨105 :: (45 :: (ds ++ [101])), a⟩).1 = _
      rw [take_value_int_step, hti]
      rfl
    · rw [if_neg hval]
      have hvo : maxI64 < (digitsVal 0 ds : Int) := by
        simp only [maxI64]
        omega
      obtain ⟨b, hb⟩ : ∃ b, take_int ⟨105 :: (45 :: (ds ++ [101])), a⟩ = (none, ⟨b, a⟩) :=
        take_int_digits_neg_overflow hne hds hvo
      show (take_value (2 * (105 :: (45 :: (ds ++ [101]))).length + 1)
        ⟨105 :: (45 :: (ds ++ [101])), a⟩).1 = _
      rw [take_value_int_step, hb]

/-! ## Claim theorems -/

/-- Example tree used to witness the round-trip theorem: a dictionary with a
nested list and both ownership modes of byte strings. -/
def c1tree : Value :=
  Value.dict [(Cow.borrowed (bytes "a"), Value.int 1),
    (Cow.owned (bytes "b"), Value.list [Value.str (Cow.owned (bytes "x"))])]

/-- C1 (amended): round-trip holds for every valid tree that contains no
integer equal to `i64::MIN`, for every budget at least the number of list
elements plus dictionary entries; the decoded tree is `strip T`, i.e. `T`
with every byte string borrowed — equal to `T` under content equality. -/
theorem claim_c1_roundtrip (T : Value) (n : Nat) (hv : validVal T = true)
    (hm : hasMinInt T = false) (hc : countVal T ≤ n) :
    Value.decode (encodeVal T) n = some (strip T) :=
  decode_encode T n hv hm hc

theorem claim_c1_witness :
    validVal c1tree = true ∧ hasMinInt c1tree = false ∧ countVal c1tree ≤ 3 ∧
      Value.decode (encodeVal c1tree) 3 = some (strip c1tree) :=
  ⟨by decide, by decide, by decide,
    claim_c1_roundtrip c1tree 3 (by decide) (by decide) (by decide)⟩

/-- C1 counterexample: the claim as stated fails at `T = Int(i64::MIN)` —
a valid tree with zero container entries whose canonical encoding
`i-9223372036854775808e` does not decode (the decoder accumulates the
magnitude in signed 64-bit arithmetic, which overflows). -/
theorem claim_c1_counterexample :
    validVal (Value.int minI64) = true ∧ countVal (Value.int minI64) = 0 ∧
      Value.decode (encodeVal (Value.int minI64)) 0 = none :=
  ⟨by decide, rfl, by decide⟩

/-- C2 (code bug): the input `d5e` is not a well-formed dictionary, yet the
decoder accepts it and returns the empty dictionary.  `take_str` consumes the
digit `5` before failing on the missing `:`, and the
`while let Some(key) = self.take_str()` loop in `take_dict` treats that
failure as normal loop exit, leaving the buffer at `e`. -/
theorem claim_c2_bug_malformed_dict :
    Value.decode (bytes "d5e") 10 = some (Value.dict []) := by decide

/-- C3 (amended): an input `i`, optional `-`, one or more digits, `e`
decodes to the signed decimal value exactly when the magnitude is at most
`2^63 - 1`; it fails when the magnitude exceeds `2^63 - 1`, hence also for
the in-range value `i64::MIN` whose magnitude is `2^63`. -/
theorem claim_c3_int_decoding (neg : Bool) (ds : List Nat) (a : Nat) (hne : ds ≠ [])
    (hds : ∀ d ∈ ds, isDigit d = true) :
    Value.decode (105 :: ((if neg then [45] else []) ++ (ds ++ [101]))) a =
      if digitsVal 0 ds ≤ 2 ^ 63 - 1
      then some (Value.int (if neg
        then -((digitsVal 0 ds : Nat) : Int) else ((digitsVal 0 ds : Nat) : Int)))
      else none :=
  decode_int_digits neg ds a hne hds

theorem claim_c3_witness :
    (([52, 50] : List Nat) ≠ [] ∧ ∀ d ∈ ([52, 50] : List Nat), isDigit d = true) ∧
    Value.decode (105 :: ((if false then [45] else []) ++ ([52, 50] ++ [101]))) 0 =
      (if digitsVal 0 [52, 50] ≤ 2 ^ 63 - 1
       then some (Value.int (if false
         then -((digitsVal 0 [52, 50] : Nat) : Int) else ((digitsVal 0 [52, 50] : Nat) : Int)))
       else none) :=
  ⟨⟨by decide, by decide⟩, claim_c3_int_decoding false [52, 50] 0 (by decide) (by decide)⟩

/-- C3 counterexample: the most negative 64-bit value is representable, but
its decimal form does not decode. -/
theorem claim_c3_counterexample :
    Value.decode (bytes "i-9223372036854775808e") 0 = none := by decide

/-- C4: allocation budget at container-entry granularity — the concrete
budget behaviors from the claim, plus: `take_int` and `take_str` never touch
the remaining allocation count (integers and byte strings consume no budget). -/
theorem claim_c4_alloc_budget :
    Value.decode (bytes "li42ee") 0 = none ∧
    Value.decode (bytes "li42ee") 1 = some (Value.list [Value.int 42]) ∧
    Value.decode (bytes "li1ei2ee") 1 = none ∧
    Value.decode (bytes "li1ei2ee") 2 = some (Value.list [Value.int 1, Value.int 2]) ∧
    Value.decode (bytes "le") 0 = some (Value.list []) ∧
    Value.decode (bytes "de") 0 = some (Value.dict []) ∧
    Value.decode (bytes "i42e") 0 = some (Value.int 42) ∧
    Value.decode (bytes "5:hello") 0 = some (Value.str (Cow.borrowed (bytes "hello"))) ∧
    (∀ s : DState, ((take_int s).2).rem_allocs = s.rem_allocs) ∧
    (∀ s : DState, ((take_str s).2).rem_allocs = s.rem_allocs) :=
  ⟨by decide, by decide, by decide, by decide, by decide, by decide, by decide, by decide,
    rem_take_int, rem_take_str⟩

/-- C5: every dictionary of every successfully decoded value is strictly
sorted in ascending byte-lexicographic key order, and the concrete example:
decoding `d4:name4:John3:agei42ee` yields a tree that re-encodes canonically
as `d3:agei42e4:name4:Johne`. -/
theorem claim_c5_canonical_order :
    (∀ (buf : List Nat) (n : Nat) (v : Value),
      Value.decode buf n = some v → sortedVal v = true) ∧
    (Value.decode (bytes "d4:name4:John3:agei42ee") 10).map encodeVal =
      some (bytes "d3:agei42e4:name4:Johne") :=
  ⟨decode_sorted, by decide⟩

theorem claim_c5_witness :
    sortedVal (Value.dict [(Cow.borrowed (bytes "age"), Value.int 42),
      (Cow.borrowed (bytes "name"), Value.str (Cow.borrowed (bytes "John")))]) = true :=
  claim_c5_canonical_order.1 (bytes "d4:name4:John3:agei42ee") 10 _ (by decide)

/-- C6: duplicate dictionary keys make the whole decode fail (the concrete
input from the claim), and in general inserting a byte-identical key into
the dictionary built so far fails rather than overwriting. -/
theorem claim_c6_duplicate_keys :
    Value.decode (bytes "d3:agei30e3:agei40ee") 10 = none ∧
    (∀ (k : Cow) (v : Value) (d : List (Cow × Value)), keysSorted d = true →
      (∃ e ∈ d, e.1.data = k.data) → dictInsert k v d = none) :=
  ⟨by decide, fun _ _ _ hs hd => dictInsert_dup hs hd⟩

theorem claim_c6_witness :
    dictInsert (Cow.borrowed (bytes "a")) (Value.int 1)
      [(Cow.owned (bytes "a"), Value.int 0)] = none :=
  claim_c6_duplicate_keys.2 (Cow.borrowed (bytes "a")) (Value.int 1)
    [(Cow.owned (bytes "a"), Value.int 0)] (by decide)
    ⟨(Cow.owned (bytes "a"), Value.int 0), by decide, by decide⟩

/-- C7 (code bug): appending trailing bytes can turn a successful decode
into a failure.  `d2:e` decodes (to the empty dictionary, itself a
consequence of the `take_dict` loop bug), but `d2:ex` does not: the key
parser now reads the two raw bytes `ex` as a key and the decode then fails,
so the trailing-bytes property claimed by the specification is violated. -/
theorem claim_c7_bug_trailing_bytes :
    Value.decode (bytes "d2:e") 0 = some (Value.dict []) ∧
    Value.decode (bytes "d2:e" ++ bytes "x") 0 = none :=
  ⟨by decide, by decide⟩

/-- Example value for the typed-projection claim: `{"a": {"id": <20 bytes>}}`. -/
def c8dict : Value :=
  Value.dict [(Cow.borrowed (bytes "a"),
    Value.dict [(Cow.borrowed (bytes "id"), Value.str (Cow.owned (List.replicate 20 5)))])]

/-- C8: converting to a fixed-size byte array succeeds exactly on byte
strings of that exact length; the `get`-composition example with a 20-byte
array succeeds and with a 19-byte array fails; and every failing step
(wrong variant, missing key) yields the same `none`. -/
theorem claim_c8_typed_projection :
    (∀ (n : Nat) (v : Value), (tryFromArray n v).isSome = true ↔
      ∃ s, v = Value.str s ∧ s.data.length = n) ∧
    (c8dict.get (bytes "a")).bind (fun a => a.getArray (bytes "id") 20) =
      some (List.replicate 20 5) ∧
    (c8dict.get (bytes "a")).bind (fun a => a.getArray (bytes "id") 19) = none ∧
    (∀ key, (Value.int 3).get key = none) ∧
    c8dict.get (bytes "b") = none := by
  refine ⟨?_, by decide, by decide, fun key => rfl, by decide⟩
  intro n v
  cases v with
  | int i => simp [tryFromArray]
  | list l => simp [tryFromArray]
  | dict d => simp [tryFromArray]
  | str s =>
    simp only [tryFromArray]
    by_cases h : s.data.length = n
    · rw [if_pos h]
      simp only [Option.isSome_some, true_iff]
      exact ⟨s, rfl, h⟩
    · rw [if_neg h]
      simp only [Option.isSome_none, Bool.false_eq_true, false_iff]
      rintro ⟨s', heq, hlen⟩
      obtain rfl : s = s' := by
        cases heq
        rfl
      exact h hlen

/-- C9: `into_owned` is total (a plain function), content-preserving (same
canonical encoding and equal under content equality), and leaves no borrowed
byte spans anywhere in the result. -/
theorem claim_c9_into_owned (v : Value) :
    encodeVal (intoOwned v) = encodeVal v ∧ hasBorrowed (intoOwned v) = false ∧
      strip (intoOwned v) = strip v :=
  ⟨intoOwned_encode v, intoOwned_noBorrow v, intoOwned_strip v⟩

/-- C10: integer encoding is total over the whole `i64` range: the encoding
is `i`, then `-` iff the value is negative, then the minimal decimal digits
of the unsigned absolute value (nonempty, all digits, whose value is the
magnitude, and with no leading zero except for `0` itself), then `e`; in
particular `Int(i64::MIN)` encodes to exactly `i-9223372036854775808e`. -/
theorem claim_c10_int_encoding :
    (∀ n : Int, minI64 ≤ n → n ≤ maxI64 →
      ∃ ds, encodeVal (Value.int n) = 105 :: ((if n < 0 then [45] else []) ++ ds ++ [101]) ∧
        ds ≠ [] ∧ (∀ d ∈ ds, isDigit d = true) ∧
        digitsVal 0 ds = n.natAbs ∧
        (ds.head? = some 48 → ds = [48])) ∧
    encodeVal (Value.int minI64) = bytes "i-9223372036854775808e" := by
  constructor
  · intro n h1 h2
    have habsn : n.natAbs ≤ maxU64 := by
      simp only [minI64, maxI64] at h1 h2
      simp only [maxU64]
      omega
    exact ⟨raw_u64 n.natAbs, rfl, raw_u64_ne_nil, raw_u64_digits,
      raw_u64_val habsn, raw_u64_minimal habsn⟩
  · decide

theorem claim_c10_witness :
    ∃ ds, encodeVal (Value.int (-42)) =
        105 :: ((if (-42 : Int) < 0 then [45] else []) ++ ds ++ [101]) ∧
      ds ≠ [] ∧ (∀ d ∈ ds, isDigit d = true) ∧
      digitsVal 0 ds = (-42 : Int).natAbs ∧
      (ds.head? = some 48 → ds = [48]) :=
  claim_c10_int_encoding.1 (-42) (by decide) (by decide)

end Bencode

